import Mathlib

/-!
Verification of the rigra convention normalization & merge engine.

This file gives a shallow embedding of the core pure transformations of
the rigra repository (`src/apps/rigra/src/format.rs`, `lint.rs`,
`sync.rs`) and proves the testable properties stated in the
specification against it.

Modelling conventions:
- `serde_json::Value` is embedded as `Rigra.Json`; the crate is built
  with serde_json's `preserve_order` feature (the unit test
  `test_apply_order_top_then_sub_then_rest` asserts insertion order is
  kept), hence objects are insertion-ordered association lists and
  `Map::remove` is IndexMap's `swap_remove`.
- JSON numbers are embedded as `Int`; the verified claims only use
  numbers through value equality, never through float arithmetic.
- `HashMap` fields that the code iterates (`order.sub`,
  `mcfg.array`) are embedded as association lists; the iteration order
  of the embedding is the list order (the source's iteration order is
  unspecified, which the spec acknowledges).
-/

namespace Rigra

/-- Embedding of `serde_json::Value` (with `preserve_order`: objects keep
insertion order). -/
inductive Json where
  | null : Json
  | bool (b : Bool) : Json
  | num (n : Int) : Json
  | str (s : String) : Json
  | arr (items : List Json) : Json
  | obj (fields : List (String × Json)) : Json
  deriving Repr

mutual

/-- Decidable structural equality of JSON values (`PartialEq` on
`serde_json::Value` is value equality). -/
def Json.decEq : (a b : Json) → Decidable (a = b)
  | .null, .null => isTrue rfl
  | .bool a, .bool b =>
      if h : a = b then isTrue (by rw [h])
      else isFalse (fun hh => h (Json.bool.inj hh))
  | .num a, .num b =>
      if h : a = b then isTrue (by rw [h])
      else isFalse (fun hh => h (Json.num.inj hh))
  | .str a, .str b =>
      if h : a = b then isTrue (by rw [h])
      else isFalse (fun hh => h (Json.str.inj hh))
  | .arr a, .arr b =>
      match Json.decEqList a b with
      | isTrue h => isTrue (by rw [h])
      | isFalse h => isFalse (fun hh => h (Json.arr.inj hh))
  | .obj a, .obj b =>
      match Json.decEqFields a b with
      | isTrue h => isTrue (by rw [h])
      | isFalse h => isFalse (fun hh => h (Json.obj.inj hh))
  | .null, .bool _ => isFalse nofun
  | .null, .num _ => isFalse nofun
  | .null, .str _ => isFalse nofun
  | .null, .arr _ => isFalse nofun
  | .null, .obj _ => isFalse nofun
  | .bool _, .null => isFalse nofun
  | .bool _, .num _ => isFalse nofun
  | .bool _, .str _ => isFalse nofun
  | .bool _, .arr _ => isFalse nofun
  | .bool _, .obj _ => isFalse nofun
  | .num _, .null => isFalse nofun
  | .num _, .bool _ => isFalse nofun
  | .num _, .str _ => isFalse nofun
  | .num _, .arr _ => isFalse nofun
  | .num _, .obj _ => isFalse nofun
  | .str _, .null => isFalse nofun
  | .str _, .bool _ => isFalse nofun
  | .str _, .num _ => isFalse nofun
  | .str _, .arr _ => isFalse nofun
  | .str _, .obj _ => isFalse nofun
  | .arr _, .null => isFalse nofun
  | .arr _, .bool _ => isFalse nofun
  | .arr _, .num _ => isFalse nofun
  | .arr _, .str _ => isFalse nofun
  | .arr _, .obj _ => isFalse nofun
  | .obj _, .null => isFalse nofun
  | .obj _, .bool _ => isFalse nofun
  | .obj _, .num _ => isFalse nofun
  | .obj _, .str _ => isFalse nofun
  | .obj _, .arr _ => isFalse nofun

def Json.decEqList : (x y : List Json) → Decidable (x = y)
  | [], [] => isTrue rfl
  | [], _ :: _ => isFalse nofun
  | _ :: _, [] => isFalse nofun
  | a :: as, b :: bs =>
      match Json.decEq a b with
      | isFalse h1 => isFalse (fun hh => h1 (List.cons.inj hh).1)
      | isTrue h1 =>
        match Json.decEqList as bs with
        | isTrue h2 => isTrue (by rw [h1, h2])
        | isFalse h2 => isFalse (fun hh => h2 (List.cons.inj hh).2)

def Json.decEqFields : (x y : List (String × Json)) → Decidable (x = y)
  | [], [] => isTrue rfl
  | [], _ :: _ => isFalse nofun
  | _ :: _, [] => isFalse nofun
  | (k, v) :: as, (k', v') :: bs =>
      if hk : k = k' then
        match Json.decEq v v' with
        | isFalse h1 =>
            isFalse (fun hh => h1 (congrArg Prod.snd (List.cons.inj hh).1))
        | isTrue h1 =>
          match Json.decEqFields as bs with
          | isTrue h2 => isTrue (by rw [hk, h1, h2])
          | isFalse h2 => isFalse (fun hh => h2 (List.cons.inj hh).2)
      else isFalse (fun hh => hk (congrArg Prod.fst (List.cons.inj hh).1))

end

instance : DecidableEq Json := Json.decEq

namespace Json

/-- `Value::as_array` — returns the element list when the value is an array. -/
def asArray : Json → Option (List Json)
  | .arr l => some l
  | _ => none

end Json

/-! ### Object (IndexMap) operations

`serde_json::Map` with `preserve_order` is an `IndexMap`.  `insert`
replaces the value of an existing key in place and appends a missing
key at the end; `remove` is `swap_remove`: the removed slot is filled
with the last entry. -/

namespace Obj

/-- `Map::get` / `contains_key`: first entry with the key. -/
def lookup : List (String × Json) → String → Option Json
  | [], _ => none
  | (k', v) :: rest, k => if k' = k then some v else lookup rest k

/-- `IndexMap::insert`: replace in place when the key exists, else append. -/
def insert : List (String × Json) → String → Json → List (String × Json)
  | [], k, v => [(k, v)]
  | (k', v') :: rest, k, v =>
      if k' = k then (k, v) :: rest else (k', v') :: insert rest k v

/-- `IndexMap::swap_remove` (what `Map::remove` does under
`preserve_order`): the last entry is moved into the removed slot. -/
def swapRemove : List (String × Json) → String → List (String × Json)
  | [], _ => []
  | (k', v') :: rest, k =>
      if k' = k then
        match rest.getLast? with
        | none => []
        | some last => last :: rest.dropLast
      else (k', v') :: swapRemove rest k

/-- Keys of an object, in order. -/
def keys (m : List (String × Json)) : List String := m.map Prod.fst

end Obj

mutual

/-- Well-formedness of an embedded JSON value: every object (recursively)
has pairwise-distinct keys, the invariant `IndexMap` maintains for any
value produced by `serde_json` parsing. -/
def Json.wf : Json → Bool
  | .null => true
  | .bool _ => true
  | .num _ => true
  | .str _ => true
  | .arr l => Json.wfList l
  | .obj m => decide ((m.map Prod.fst).Nodup) && Json.wfFields m

def Json.wfList : List Json → Bool
  | [] => true
  | x :: xs => x.wf && Json.wfList xs

def Json.wfFields : List (String × Json) → Bool
  | [] => true
  | (_, v) :: rest => v.wf && Json.wfFields rest

end

/-! ### Lexicographic string order and `Vec::sort`

Rust compares `String`s byte-lexicographically; on UTF-8 this agrees
with code-point order, embedded here via `Char.toNat`.  `Vec::sort`
produces the unique sorted permutation (equal strings are identical),
modelled as an insertion sort. -/

/-- Lexicographic comparison of char sequences by code point. -/
def charsLe : List Char → List Char → Bool
  | [], _ => true
  | _ :: _, [] => false
  | a :: as, b :: bs =>
      if a.toNat < b.toNat then true
      else if b.toNat < a.toNat then false
      else charsLe as bs

/-- Rust's lexicographic `String` ordering. -/
def strLe (a b : String) : Bool := charsLe a.data b.data

/-- Insertion into a `strLe`-sorted list. -/
def insertStr (x : String) : List String → List String
  | [] => [x]
  | y :: ys => if strLe x y then x :: y :: ys else y :: insertStr x ys

/-- `Vec::sort` on strings: the sorted permutation. -/
def sortStrings : List String → List String
  | [] => []
  | x :: xs => insertStr x (sortStrings xs)

theorem charsLe_total : ∀ as bs, charsLe as bs = true ∨ charsLe bs as = true
  | [], _ => Or.inl rfl
  | _ :: _, [] => Or.inr rfl
  | a :: as, b :: bs => by
      simp only [charsLe]
      rcases Nat.lt_trichotomy a.toNat b.toNat with h | h | h
      · left
        rw [if_pos h]
      · have h1 : ¬ a.toNat < b.toNat := by omega
        have h2 : ¬ b.toNat < a.toNat := by omega
        rw [if_neg h1, if_neg h2, if_neg h2, if_neg h1]
        exact charsLe_total as bs
      · right
        rw [if_pos h]

theorem charsLe_trans : ∀ as bs cs, charsLe as bs = true → charsLe bs cs = true →
    charsLe as cs = true
  | [], _, _, _, _ => rfl
  | _ :: _, [], _, h, _ => by simp [charsLe] at h
  | _ :: _, _ :: _, [], _, h2 => by simp [charsLe] at h2
  | a :: as, b :: bs, c :: cs, h1, h2 => by
      simp only [charsLe] at h1 h2 ⊢
      by_cases hab : a.toNat < b.toNat
      · by_cases hbc : b.toNat < c.toNat
        · have h : a.toNat < c.toNat := Nat.lt_trans hab hbc
          simp [h]
        · rw [if_neg hbc] at h2
          by_cases hcb : c.toNat < b.toNat
          · rw [if_pos hcb] at h2
            exact absurd h2 (by simp)
          · have h : a.toNat < c.toNat := by omega
            simp [h]
      · rw [if_neg hab] at h1
        by_cases hba : b.toNat < a.toNat
        · rw [if_pos hba] at h1
          exact absurd h1 (by simp)
        · rw [if_neg hba] at h1
          by_cases hbc : b.toNat < c.toNat
          · have h : a.toNat < c.toNat := by omega
            simp [h]
          · rw [if_neg hbc] at h2
            by_cases hcb : c.toNat < b.toNat
            · rw [if_pos hcb] at h2
              exact absurd h2 (by simp)
            · rw [if_neg hcb] at h2
              have h3 : ¬ a.toNat < c.toNat := by omega
              have h4 : ¬ c.toNat < a.toNat := by omega
              rw [if_neg h3, if_neg h4]
              exact charsLe_trans as bs cs h1 h2

theorem charsLe_antisymm : ∀ as bs, charsLe as bs = true → charsLe bs as = true →
    as = bs
  | [], [], _, _ => rfl
  | [], _ :: _, _, h2 => by simp [charsLe] at h2
  | _ :: _, [], h1, _ => by simp [charsLe] at h1
  | a :: as, b :: bs, h1, h2 => by
      simp only [charsLe] at h1 h2
      by_cases hab : a.toNat < b.toNat
      · have : ¬ b.toNat < a.toNat := by omega
        rw [if_neg this, if_pos hab] at h2
        exact absurd h2 (by simp)
      · rw [if_neg hab] at h1
        by_cases hba : b.toNat < a.toNat
        · rw [if_pos hba] at h1
          exact absurd h1 (by simp)
        · rw [if_neg hba] at h1
          rw [if_neg hba, if_neg hab] at h2
          have hn : a.toNat = b.toNat := by omega
          have hc : a = b := by
            apply Char.ext
            apply UInt32.eq_of_val_eq
            apply Fin.ext
            exact hn
          rw [hc, charsLe_antisymm as bs h1 h2]

theorem strLe_total (a b : String) : strLe a b = true ∨ strLe b a = true :=
  charsLe_total a.data b.data

theorem strLe_trans {a b c : String} (h1 : strLe a b = true)
    (h2 : strLe b c = true) : strLe a c = true :=
  charsLe_trans a.data b.data c.data h1 h2

theorem strLe_antisymm {a b : String} (h1 : strLe a b = true)
    (h2 : strLe b a = true) : a = b :=
  String.ext (charsLe_antisymm a.data b.data h1 h2)

/-- Sortedness w.r.t. `strLe`. -/
def StrSorted (l : List String) : Prop :=
  l.Pairwise (fun a b => strLe a b = true)

theorem insertStr_perm (x : String) (l : List String) :
    (insertStr x l).Perm (x :: l) := by
  induction l with
  | nil => simp [insertStr]
  | cons y ys ih =>
      by_cases h : strLe x y = true
      · simp [insertStr, h]
      · simp only [insertStr, h, if_false]
        exact (ih.cons y).trans (List.Perm.swap x y ys)

theorem sortStrings_perm (l : List String) : (sortStrings l).Perm l := by
  induction l with
  | nil => simp [sortStrings]
  | cons x xs ih =>
      exact (insertStr_perm x (sortStrings xs)).trans (ih.cons x)

theorem insertStr_sorted (x : String) (l : List String) (hl : StrSorted l) :
    StrSorted (insertStr x l) := by
  induction l with
  | nil => simp [insertStr, StrSorted]
  | cons y ys ih =>
      rcases List.pairwise_cons.mp hl with ⟨hy, hys⟩
      by_cases h : strLe x y = true
      · simp only [insertStr, h, if_true]
        refine List.pairwise_cons.mpr ⟨?_, hl⟩
        intro z hz
        rcases List.mem_cons.mp hz with rfl | hz'
        · exact h
        · exact strLe_trans h (hy z hz')
      · simp only [insertStr, h, if_false]
        refine List.pairwise_cons.mpr ⟨?_, ih hys⟩
        intro z hz
        rcases List.mem_cons.mp ((insertStr_perm x ys).mem_iff.mp hz) with rfl | hz'
        · rcases strLe_total z y with hh | hh
          · exact absurd hh h
          · exact hh
        · exact hy z hz'

theorem sortStrings_sorted (l : List String) : StrSorted (sortStrings l) := by
  induction l with
  | nil => simp [sortStrings, StrSorted]
  | cons x xs ih => exact insertStr_sorted x (sortStrings xs) ih

theorem sorted_perm_unique : ∀ l₁ l₂ : List String, StrSorted l₁ → StrSorted l₂ →
    l₁.Perm l₂ → l₁ = l₂
  | [], [], _, _, _ => rfl
  | [], _ :: _, _, _, hp => by simpa using hp.length_eq
  | _ :: _, [], _, _, hp => by simpa using hp.length_eq
  | a :: as, b :: bs, h1, h2, hp => by
      rcases List.pairwise_cons.mp h1 with ⟨ha, has⟩
      rcases List.pairwise_cons.mp h2 with ⟨hb, hbs⟩
      have hab : a = b := by
        have hma : a ∈ b :: bs := hp.mem_iff.mp (List.mem_cons_self a as)
        have hmb : b ∈ a :: as := hp.mem_iff.mpr (List.mem_cons_self b bs)
        rcases List.mem_cons.mp hma with rfl | hma'
        · rfl
        · rcases List.mem_cons.mp hmb with h | hmb'
          · exact h.symm
          · exact strLe_antisymm (ha b hmb') (hb a hma')
      subst hab
      have hp' : as.Perm bs := hp.cons_inv
      rw [sorted_perm_unique as bs has hbs hp']

theorem sortStrings_eq_of_perm {l₁ l₂ : List String} (h : l₁.Perm l₂) :
    sortStrings l₁ = sortStrings l₂ :=
  sorted_perm_unique _ _ (sortStrings_sorted l₁) (sortStrings_sorted l₂)
    ((sortStrings_perm l₁).trans (h.trans (sortStrings_perm l₂).symm))

theorem sortStrings_of_sorted {l : List String} (h : StrSorted l) :
    sortStrings l = l :=
  sorted_perm_unique _ _ (sortStrings_sorted l) h (sortStrings_perm l)

/-! ### Key-Order Normalizer (`format.rs`, `apply_order_from`) -/

/-- State of `apply_order_from`'s loops: the shrinking source object, the
object under construction and the `changed` flag. -/
structure OrderSt where
  obj : List (String × Json)
  newObj : List (String × Json)
  changed : Bool
  deriving Repr

/-- One `if let Some(v) = obj.remove(key) { new_obj.insert(key, v); changed = true; }`
step of the `top`/`sub` loops. -/
def moveKey (st : OrderSt) (key : String) : OrderSt :=
  match Obj.lookup st.obj key with
  | some v => ⟨Obj.swapRemove st.obj key, Obj.insert st.newObj key v, true⟩
  | none => st

/-- One step of the trailing `rest` loop, which moves a key without
touching `changed`. -/
def moveKeyRest (st : OrderSt) (key : String) : OrderSt :=
  match Obj.lookup st.obj key with
  | some v => ⟨Obj.swapRemove st.obj key, Obj.insert st.newObj key v, st.changed⟩
  | none => st

/-- `apply_order_from` (format.rs): move the `top` group keys, then the
`sub` group keys (map-iteration order = list order in this embedding),
then append the remaining keys sorted lexicographically.  Returns the
reordered value and the `changed` flag. -/
def apply_order_from (j : Json) (top : List (List String))
    (sub : List (String × List String)) : Json × Bool :=
  match j with
  | .obj obj =>
      let st1 := top.foldl (fun st g => g.foldl moveKey st) ⟨obj, [], false⟩
      let st2 := sub.foldl (fun st g => g.2.foldl moveKey st) st1
      let rest := sortStrings (st2.obj.map Prod.fst)
      let st3 := rest.foldl moveKeyRest st2
      (.obj st3.newObj, st3.changed)
  | other => (other, false)

/-- Keys of a JSON object value (empty for non-objects). -/
def Json.objKeys : Json → List String
  | .obj m => m.map Prod.fst
  | _ => []

/-- All keys claimed by an order spec: `top` groups flattened, then the
`sub` groups flattened in map-iteration order. -/
def orderFlat (top : List (List String)) (sub : List (String × List String)) :
    List String :=
  top.flatten ++ (sub.map Prod.snd).flatten

/-- The key sequence §4.1 promises: top-group keys present in the object
(declared order), then sub-group keys present, then the remaining keys
sorted lexicographically ascending. -/
def expectedOrder (obj : List (String × Json)) (top : List (List String))
    (sub : List (String × List String)) : List String :=
  (top.flatten.filter (fun k => k ∈ Obj.keys obj))
    ++ ((sub.map Prod.snd).flatten.filter (fun k => k ∈ Obj.keys obj))
    ++ sortStrings
        ((Obj.keys obj).filter (fun k => k ∉ orderFlat top sub))

/-! ### Basic lemmas about the object operations -/

namespace Obj

theorem lookup_eq_none_iff (m : List (String × Json)) (k : String) :
    lookup m k = none ↔ k ∉ keys m := by
  induction m with
  | nil => simp [lookup, keys]
  | cons e rest ih =>
      obtain ⟨k', v⟩ := e
      by_cases h : k' = k
      · subst h
        simp [lookup, keys]
      · have hne : ¬ k = k' := fun hh => h hh.symm
        simp only [lookup, if_neg h, keys, List.map_cons, List.mem_cons]
        rw [ih]
        simp [keys, hne]

theorem lookup_mem (m : List (String × Json)) (k : String) (v : Json)
    (h : lookup m k = some v) : (k, v) ∈ m := by
  induction m with
  | nil => simp [lookup] at h
  | cons e rest ih =>
      obtain ⟨k', v'⟩ := e
      by_cases hk : k' = k
      · subst hk
        simp [lookup] at h
        simp [h]
      · simp only [lookup, if_neg hk] at h
        exact List.mem_cons_of_mem _ (ih h)

theorem lookup_isSome_iff (m : List (String × Json)) (k : String) :
    (lookup m k).isSome ↔ k ∈ keys m := by
  cases h : lookup m k with
  | none =>
      simp only [Option.isSome_none, Bool.false_eq_true, false_iff]
      exact (lookup_eq_none_iff m k).mp h
  | some v =>
      simp only [Option.isSome_some, true_iff]
      exact List.mem_map.mpr ⟨(k, v), lookup_mem m k v h, rfl⟩

theorem mem_lookup (m : List (String × Json)) (k : String) (v : Json)
    (hnd : (keys m).Nodup) (h : (k, v) ∈ m) : lookup m k = some v := by
  induction m with
  | nil => simp at h
  | cons e rest ih =>
      obtain ⟨k', v'⟩ := e
      simp only [keys, List.map_cons, List.nodup_cons] at hnd
      rcases List.mem_cons.mp h with h1 | h1
      · injection h1 with ha hb
        subst ha
        subst hb
        simp [lookup]
      · have hk : k' ≠ k := by
          rintro rfl
          exact hnd.1 (List.mem_map.mpr ⟨(k', v), h1, rfl⟩)
        simp only [lookup, if_neg hk]
        exact ih hnd.2 h1

theorem lookup_eq_of_perm (m₁ m₂ : List (String × Json))
    (hp : m₁.Perm m₂) (hnd : (keys m₁).Nodup) (k : String) :
    lookup m₁ k = lookup m₂ k := by
  have hnd₂ : (keys m₂).Nodup := ((hp.map Prod.fst).nodup_iff).mp hnd
  cases h : lookup m₁ k with
  | none =>
      rw [lookup_eq_none_iff] at h
      have : k ∉ keys m₂ := fun hm => h ((hp.map Prod.fst).mem_iff.mpr hm)
      exact ((lookup_eq_none_iff m₂ k).mpr this).symm
  | some v =>
      exact (mem_lookup m₂ k v hnd₂ (hp.mem_iff.mp (lookup_mem m₁ k v h))).symm

/-- `swap_remove` is, up to permutation, removal of the first entry with
the key. -/
theorem swapRemove_perm (m : List (String × Json)) (k : String) :
    (swapRemove m k).Perm (m.eraseP (fun e => e.1 = k)) := by
  induction m with
  | nil => simp [swapRemove]
  | cons e rest ih =>
      obtain ⟨k', v'⟩ := e
      by_cases hk : k' = k
      · subst hk
        simp only [swapRemove, if_pos rfl, List.eraseP_cons, decide_True, cond_true]
        cases hlast : rest.getLast? with
        | none =>
            have : rest = [] := by
              cases rest with
              | nil => rfl
              | cons a as => simp [List.getLast?_concat, List.getLast?] at hlast
            simp [this]
        | some last =>
            have hne : rest ≠ [] := by
              intro hh
              rw [hh] at hlast
              simp at hlast
            have hg : rest.getLast hne = last := by
              have hx := List.getLast?_eq_getLast rest hne
              rw [hx] at hlast
              exact Option.some.inj hlast
            have hr : rest.dropLast ++ [last] = rest := by
              rw [← hg]
              exact List.dropLast_append_getLast hne
            have h1 : (last :: rest.dropLast).Perm (rest.dropLast ++ [last]) := by
              simpa using (@List.perm_append_comm _ [last] rest.dropLast)
            rw [hr] at h1
            exact h1
      · simp only [swapRemove, if_neg hk, List.eraseP_cons]
        have hd : (decide (k' = k)) = false := by simp [hk]
        rw [hd]
        simp only [cond_false]
        exact (ih.cons _)

theorem keys_eraseP (m : List (String × Json)) (k : String) :
    keys (m.eraseP (fun e => e.1 = k)) = (keys m).erase k := by
  induction m with
  | nil => simp [keys]
  | cons e rest ih =>
      obtain ⟨k', v'⟩ := e
      by_cases hk : k' = k
      · subst hk
        simp [keys, List.erase_cons]
      · have hd : (decide (k' = k)) = false := by simp [hk]
        have hb : (k' == k) = false := by
          simp only [beq_eq_false_iff_ne, ne_eq]
          exact hk
        simp only [keys, List.eraseP_cons, hd, cond_false, List.map_cons,
          List.erase_cons, hb, if_false]
        simp only [keys] at ih
        rw [ih]
        simp

theorem keys_swapRemove_perm (m : List (String × Json)) (k : String) :
    (keys (swapRemove m k)).Perm ((keys m).erase k) := by
  have h := (swapRemove_perm m k).map Prod.fst
  rw [show (m.eraseP (fun e => e.1 = k)).map Prod.fst = keys (m.eraseP (fun e => e.1 = k)) from rfl,
    keys_eraseP] at h
  exact h

theorem nodup_keys_swapRemove (m : List (String × Json)) (k : String)
    (hnd : (keys m).Nodup) : (keys (swapRemove m k)).Nodup :=
  (keys_swapRemove_perm m k).nodup_iff.mpr (hnd.erase k)

theorem lookup_swapRemove_self (m : List (String × Json)) (k : String)
    (hnd : (keys m).Nodup) : lookup (swapRemove m k) k = none := by
  rw [lookup_eq_none_iff]
  intro hmem
  have := (keys_swapRemove_perm m k).mem_iff.mp hmem
  exact (hnd.mem_erase_iff.mp this).1 rfl

theorem lookup_eraseP_other (m : List (String × Json)) (k k' : String)
    (h : k' ≠ k) : lookup (m.eraseP (fun e => e.1 = k)) k' = lookup m k' := by
  induction m with
  | nil => simp
  | cons e rest ih =>
      obtain ⟨k₀, v₀⟩ := e
      by_cases hk : k₀ = k
      · subst hk
        have hne : k₀ ≠ k' := fun hh => h hh.symm
        simp only [List.eraseP_cons, decide_True, cond_true, lookup, if_neg hne]
      · have hd : (decide (k₀ = k)) = false := by simp [hk]
        simp only [List.eraseP_cons, hd, cond_false]
        by_cases hk' : k₀ = k'
        · simp [lookup, hk']
        · simp [lookup, hk', ih]

theorem lookup_swapRemove_other (m : List (String × Json)) (k k' : String)
    (hnd : (keys m).Nodup) (h : k' ≠ k) :
    lookup (swapRemove m k) k' = lookup m k' := by
  have hnd' : (keys (m.eraseP (fun e => e.1 = k))).Nodup := by
    rw [keys_eraseP]
    exact hnd.erase k
  rw [lookup_eq_of_perm _ _ (swapRemove_perm m k)
    (((swapRemove_perm m k).map Prod.fst).nodup_iff.mpr hnd'),
    lookup_eraseP_other m k k' h]

theorem lookup_insert_self (m : List (String × Json)) (k : String) (v : Json) :
    lookup (insert m k v) k = some v := by
  induction m with
  | nil => simp [insert, lookup]
  | cons e rest ih =>
      obtain ⟨k', v'⟩ := e
      by_cases hk : k' = k
      · simp [insert, hk, lookup]
      · simp [insert, hk, lookup, ih]

theorem lookup_insert_other (m : List (String × Json)) (k k' : String) (v : Json)
    (h : k' ≠ k) : lookup (insert m k v) k' = lookup m k' := by
  have hne : ¬ k = k' := fun hh => h hh.symm
  induction m with
  | nil => simp [insert, lookup, hne]
  | cons e rest ih =>
      obtain ⟨k₀, v₀⟩ := e
      by_cases hk : k₀ = k
      · subst hk
        have hne₀ : ¬ k₀ = k' := hne
        simp [insert, lookup, hne₀]
      · by_cases hk' : k₀ = k'
        · subst hk'
          simp [insert, hk, lookup]
        · simp [insert, hk, lookup, hk', ih]

theorem insert_lookup_self (m : List (String × Json)) (k : String) (v : Json)
    (h : lookup m k = some v) : insert m k v = m := by
  induction m with
  | nil => simp [lookup] at h
  | cons e rest ih =>
      obtain ⟨k', v'⟩ := e
      by_cases hk : k' = k
      · subst hk
        simp [lookup] at h
        simp [insert, h]
      · simp [lookup, hk] at h
        simp [insert, hk, ih h]

theorem insert_of_not_mem (m : List (String × Json)) (k : String) (v : Json)
    (h : k ∉ keys m) : insert m k v = m ++ [(k, v)] := by
  induction m with
  | nil => simp [insert]
  | cons e rest ih =>
      obtain ⟨k', v'⟩ := e
      simp only [keys, List.map_cons, List.mem_cons, not_or] at h
      have hne : ¬ k' = k := fun hh => h.1 hh.symm
      simp [insert, hne, ih h.2]

theorem keys_insert_of_not_mem (m : List (String × Json)) (k : String) (v : Json)
    (h : k ∉ keys m) : keys (insert m k v) = keys m ++ [k] := by
  rw [insert_of_not_mem m k v h]
  simp [keys]

end Obj

/-! ### Characterization of the normalizer folds -/

/-- The `obj`/`newObj` components of a move step; `moveKey` and
`moveKeyRest` only differ on `changed`. -/
def movePair (pr : List (String × Json) × List (String × Json)) (key : String) :
    List (String × Json) × List (String × Json) :=
  match Obj.lookup pr.1 key with
  | some v => (Obj.swapRemove pr.1 key, Obj.insert pr.2 key v)
  | none => pr

theorem moveKey_pair (st : OrderSt) (k : String) :
    ((moveKey st k).obj, (moveKey st k).newObj) = movePair (st.obj, st.newObj) k := by
  unfold moveKey movePair
  cases Obj.lookup st.obj k <;> simp

theorem moveKeyRest_pair (st : OrderSt) (k : String) :
    ((moveKeyRest st k).obj, (moveKeyRest st k).newObj)
      = movePair (st.obj, st.newObj) k := by
  unfold moveKeyRest movePair
  cases Obj.lookup st.obj k <;> simp

theorem foldl_moveKey_pair (KL : List String) (st : OrderSt) :
    ((KL.foldl moveKey st).obj, (KL.foldl moveKey st).newObj)
      = KL.foldl movePair (st.obj, st.newObj) := by
  induction KL generalizing st with
  | nil => rfl
  | cons k ks ih =>
      rw [List.foldl_cons, List.foldl_cons, ih, ← moveKey_pair]

theorem foldl_moveKeyRest_pair (KL : List String) (st : OrderSt) :
    ((KL.foldl moveKeyRest st).obj, (KL.foldl moveKeyRest st).newObj)
      = KL.foldl movePair (st.obj, st.newObj) := by
  induction KL generalizing st with
  | nil => rfl
  | cons k ks ih =>
      rw [List.foldl_cons, List.foldl_cons, ih, ← moveKeyRest_pair]

theorem foldl_moveKeyRest_changed (KL : List String) (st : OrderSt) :
    (KL.foldl moveKeyRest st).changed = st.changed := by
  induction KL generalizing st with
  | nil => rfl
  | cons k ks ih =>
      rw [List.foldl_cons, ih]
      unfold moveKeyRest
      cases Obj.lookup st.obj k <;> rfl

theorem foldl_moveKey_changed_true (KL : List String) (st : OrderSt)
    (h : st.changed = true) : (KL.foldl moveKey st).changed = true := by
  induction KL generalizing st with
  | nil => exact h
  | cons k ks ih =>
      rw [List.foldl_cons]
      apply ih
      unfold moveKey
      cases Obj.lookup st.obj k <;> simp [h]

/-- `changed` after a `top`/`sub` loop: true iff it already was, or some
processed key was present. -/
theorem foldl_moveKey_changed (KL : List String) (st : OrderSt) :
    (KL.foldl moveKey st).changed
      = (st.changed || decide (∃ k ∈ KL, k ∈ Obj.keys st.obj)) := by
  induction KL generalizing st with
  | nil => simp
  | cons k ks ih =>
      rw [List.foldl_cons]
      cases h : Obj.lookup st.obj k with
      | some v =>
          have hmem : k ∈ Obj.keys st.obj :=
            (Obj.lookup_isSome_iff st.obj k).mp (by simp [h])
          have hst' : (moveKey st k).changed = true := by
            unfold moveKey
            rw [h]
          rw [foldl_moveKey_changed_true ks _ hst']
          have hd : (st.changed || decide (∃ x ∈ k :: ks, x ∈ Obj.keys st.obj)) = true := by
            simp only [Bool.or_eq_true, decide_eq_true_eq]
            right
            exact ⟨k, List.mem_cons_self k ks, hmem⟩
          rw [hd]
      | none =>
          have hk : k ∉ Obj.keys st.obj := (Obj.lookup_eq_none_iff st.obj k).mp h
          have hst' : moveKey st k = st := by
            unfold moveKey
            rw [h]
          rw [hst', ih]
          congr 1
          rw [decide_eq_decide]
          constructor
          · rintro ⟨x, hx, hm⟩
            exact ⟨x, List.mem_cons_of_mem _ hx, hm⟩
          · rintro ⟨x, hx, hm⟩
            rcases List.mem_cons.mp hx with rfl | hx'
            · exact absurd hm hk
            · exact ⟨x, hx', hm⟩

theorem keys_filterMap_lookup (obj₀ : List (String × Json)) (P : List String) :
    (P.filterMap (fun k => (Obj.lookup obj₀ k).map (fun v => (k, v)))).map Prod.fst
      = P.filter (fun k => (Obj.lookup obj₀ k).isSome) := by
  induction P with
  | nil => rfl
  | cons p ps ih =>
      cases h : Obj.lookup obj₀ p <;> simp [h, ih]

/-- Invariant of the move folds: relative to the original object `obj₀`
and the already-built prefix `N₀`, after processing the key list `P`
the new object is `N₀` plus the processed hits in order, and the
residual object holds exactly the unprocessed entries. -/
def OrderInv (obj₀ N₀ : List (String × Json)) (P : List String)
    (pr : List (String × Json) × List (String × Json)) : Prop :=
  pr.2 = N₀ ++ P.filterMap (fun k => (Obj.lookup obj₀ k).map (fun v => (k, v))) ∧
  (∀ k, Obj.lookup pr.1 k = if k ∈ P then none else Obj.lookup obj₀ k) ∧
  (pr.1.map Prod.fst).Perm ((obj₀.map Prod.fst).filter (fun k => k ∉ P)) ∧
  (pr.1.map Prod.fst).Nodup

theorem OrderInv_init (obj₀ N₀ : List (String × Json))
    (hnd : (obj₀.map Prod.fst).Nodup) : OrderInv obj₀ N₀ [] (obj₀, N₀) := by
  refine ⟨by simp, fun k => by simp, ?_, hnd⟩
  simp

theorem OrderInv_step (obj₀ N₀ : List (String × Json)) (P : List String)
    (k : String) (pr : List (String × Json) × List (String × Json))
    (hnd₀ : (obj₀.map Prod.fst).Nodup)
    (hP : k ∉ P) (hN : k ∉ Obj.keys N₀)
    (hinv : OrderInv obj₀ N₀ P pr) :
    OrderInv obj₀ N₀ (P ++ [k]) (movePair pr k) := by
  obtain ⟨h1, h2, h3, h4⟩ := hinv
  cases hl : Obj.lookup pr.1 k with
  | none =>
      have hpr : movePair pr k = pr := by
        unfold movePair
        rw [hl]
      have hobj₀ : Obj.lookup obj₀ k = none := by
        have := (h2 k).symm.trans hl
        rwa [if_neg hP] at this
      have hks : k ∉ obj₀.map Prod.fst := by
        have := (Obj.lookup_eq_none_iff obj₀ k).mp hobj₀
        simpa [Obj.keys] using this
      rw [hpr]
      refine ⟨?_, ?_, ?_, h4⟩
      · rw [h1, List.filterMap_append]
        simp [hobj₀]
      · intro k'
        rw [h2 k']
        by_cases hk' : k' ∈ P
        · simp [hk', List.mem_append]
        · by_cases hkk : k' = k
          · subst hkk
            simp [hk', hobj₀]
          · simp [hk', hkk]
      · refine h3.trans (List.Perm.of_eq ?_)
        apply List.filter_congr
        intro x hx
        have hxk : x ≠ k := by
          rintro rfl
          exact hks hx
        simp [List.mem_append, hxk]
  | some v =>
      have hobj₀ : Obj.lookup obj₀ k = some v := by
        have := (h2 k).symm.trans hl
        rwa [if_neg hP] at this
      have hpr : movePair pr k = (Obj.swapRemove pr.1 k, Obj.insert pr.2 k v) := by
        unfold movePair
        rw [hl]
      have hknotin2 : k ∉ Obj.keys pr.2 := by
        rw [h1]
        simp only [Obj.keys, List.map_append, List.mem_append, not_or]
        refine ⟨hN, ?_⟩
        rw [keys_filterMap_lookup]
        intro hmem
        exact hP (List.mem_of_mem_filter hmem)
      rw [hpr]
      refine ⟨?_, ?_, ?_, ?_⟩
      · show Obj.insert pr.2 k v = _
        rw [Obj.insert_of_not_mem pr.2 k v hknotin2, h1, List.filterMap_append,
          List.append_assoc]
        simp [hobj₀]
      · intro k'
        by_cases hkk : k' = k
        · subst hkk
          rw [Obj.lookup_swapRemove_self pr.1 k' h4]
          simp [List.mem_append]
        · rw [Obj.lookup_swapRemove_other pr.1 k k' h4 hkk, h2 k']
          by_cases hk' : k' ∈ P
          · simp [hk', List.mem_append]
          · simp [hk', List.mem_append, hkk]
      · show (List.map Prod.fst (Obj.swapRemove pr.1 k)).Perm _
        have hp1 : (List.map Prod.fst (Obj.swapRemove pr.1 k)).Perm
            ((pr.1.map Prod.fst).erase k) := Obj.keys_swapRemove_perm pr.1 k
        have hp2 : ((pr.1.map Prod.fst).erase k).Perm
            (((obj₀.map Prod.fst).filter (fun x => x ∉ P)).erase k) := h3.erase k
        have hndf : ((obj₀.map Prod.fst).filter (fun x => x ∉ P)).Nodup :=
          hnd₀.filter _
        have he : ((obj₀.map Prod.fst).filter (fun x => x ∉ P)).erase k
            = (obj₀.map Prod.fst).filter (fun x => x ∉ P ++ [k]) := by
          rw [hndf.erase_eq_filter k, List.filter_filter]
          apply List.filter_congr
          intro x _
          by_cases hx : x = k
          · simp [hx, List.mem_append]
          · by_cases hxP : x ∈ P <;> simp [hx, hxP, List.mem_append]
        exact hp1.trans (hp2.trans (List.Perm.of_eq he))
      · show (List.map Prod.fst (Obj.swapRemove pr.1 k)).Nodup
        exact Obj.nodup_keys_swapRemove pr.1 k h4

theorem OrderInv_foldl (obj₀ N₀ : List (String × Json))
    (hnd₀ : (obj₀.map Prod.fst).Nodup) :
    ∀ (KL P : List String) pr, (∀ x ∈ KL, x ∉ P) → KL.Nodup →
    (∀ x ∈ KL, x ∉ Obj.keys N₀) →
    OrderInv obj₀ N₀ P pr → OrderInv obj₀ N₀ (P ++ KL) (KL.foldl movePair pr) := by
  intro KL
  induction KL with
  | nil => intro P pr _ _ _ h; simpa using h
  | cons k ks ih =>
      intro P pr hPd hnd hNd hinv
      have hstep := OrderInv_step obj₀ N₀ P k pr hnd₀
        (hPd k (List.mem_cons_self k ks)) (hNd k (List.mem_cons_self k ks)) hinv
      have hnext := ih (P ++ [k]) (movePair pr k)
        (by
          intro x hx
          simp only [List.mem_append, List.mem_singleton, not_or]
          refine ⟨hPd x (List.mem_cons_of_mem _ hx), ?_⟩
          rintro rfl
          exact (List.nodup_cons.mp hnd).1 hx)
        (List.nodup_cons.mp hnd).2
        (fun x hx => hNd x (List.mem_cons_of_mem _ hx))
        hstep
      rw [List.foldl_cons]
      have hass : P ++ k :: ks = (P ++ [k]) ++ ks := by simp
      rw [hass]
      exact hnext

theorem foldl_groups {α : Type} (f : α → String → α) (gs : List (List String))
    (st : α) :
    gs.foldl (fun st g => g.foldl f st) st = gs.flatten.foldl f st := by
  induction gs generalizing st with
  | nil => rfl
  | cons g gs ih => rw [List.foldl_cons, List.flatten_cons, List.foldl_append, ih]

/-- `lookup` into a filterMap-built object recovers the original lookups
on the processed keys. -/
theorem lookup_filterMap (obj₀ : List (String × Json)) (P : List String)
    (k : String) :
    Obj.lookup (P.filterMap (fun k => (Obj.lookup obj₀ k).map (fun v => (k, v)))) k
      = if k ∈ P then Obj.lookup obj₀ k else none := by
  induction P with
  | nil => simp [Obj.lookup]
  | cons p ps ih =>
      by_cases hpk : p = k
      · subst hpk
        cases h : Obj.lookup obj₀ p with
        | none => simp [h, ih]
        | some v => simp [h, Obj.lookup]
      · have hkp : ¬ k = p := fun hh => hpk hh.symm
        cases h : Obj.lookup obj₀ p with
        | none => simp [h, ih, hkp]
        | some v => simp [h, Obj.lookup, hpk, ih, hkp]

/-- Full characterization of `apply_order_from` on an object with
distinct keys, for an order spec with no duplicate keys across groups
(the invariant §3 demands of policies): the result lists the present
`top`/`sub` keys in declared order followed by the remaining keys in
lexicographic order, and `changed` is true iff some `top`/`sub` key was
present. -/
theorem apply_order_from_spec (obj : List (String × Json))
    (top : List (List String)) (sub : List (String × List String))
    (hnd : (Obj.keys obj).Nodup) (hflat : (orderFlat top sub).Nodup) :
    apply_order_from (Json.obj obj) top sub
      = (Json.obj ((orderFlat top sub
            ++ sortStrings
                ((Obj.keys obj).filter (fun k => k ∉ orderFlat top sub))).filterMap
            (fun k => (Obj.lookup obj k).map (fun v => (k, v)))),
        decide (∃ k ∈ orderFlat top sub, k ∈ Obj.keys obj)) := by
  have hdef : apply_order_from (Json.obj obj) top sub
      = (let st1 := top.foldl (fun st g => g.foldl moveKey st) ⟨obj, [], false⟩
         let st2 := sub.foldl (fun st g => g.2.foldl moveKey st) st1
         let rest := sortStrings (st2.obj.map Prod.fst)
         let st3 := rest.foldl moveKeyRest st2
         ((Json.obj st3.newObj), st3.changed)) := rfl
  rw [hdef]
  have htop : top.foldl (fun st g => g.foldl moveKey st) (⟨obj, [], false⟩ : OrderSt)
      = top.flatten.foldl moveKey ⟨obj, [], false⟩ := foldl_groups _ _ _
  have hsub : ∀ st : OrderSt, sub.foldl (fun st g => g.2.foldl moveKey st) st
      = ((sub.map Prod.snd).flatten).foldl moveKey st := by
    intro st
    rw [← foldl_groups moveKey (sub.map Prod.snd) st, List.foldl_map]
  set st1 : OrderSt := top.foldl (fun st g => g.foldl moveKey st) ⟨obj, [], false⟩
    with hst1
  set st2 : OrderSt := sub.foldl (fun st g => g.2.foldl moveKey st) st1 with hst2
  have hst2' : st2 = (orderFlat top sub).foldl moveKey ⟨obj, [], false⟩ := by
    calc st2 = ((sub.map Prod.snd).flatten).foldl moveKey st1 := hsub st1
      _ = ((sub.map Prod.snd).flatten).foldl moveKey
            (top.flatten.foldl moveKey ⟨obj, [], false⟩) := by rw [htop]
      _ = (orderFlat top sub).foldl moveKey ⟨obj, [], false⟩ := by
            rw [orderFlat, List.foldl_append]
  -- the pair view of st1 and st2
  have hp2 : (st2.obj, st2.newObj) = (orderFlat top sub).foldl movePair (obj, []) := by
    rw [hst2']
    exact foldl_moveKey_pair _ _
  have hinv2 : OrderInv obj [] (orderFlat top sub)
      ((orderFlat top sub).foldl movePair (obj, [])) := by
    have h := OrderInv_foldl obj [] hnd (orderFlat top sub) [] (obj, [])
      (by simp) hflat (by simp [Obj.keys]) (OrderInv_init obj [] hnd)
    simpa using h
  rw [← hp2] at hinv2
  obtain ⟨h1, h2, h3, h4⟩ := hinv2
  -- the rest keys are the sorted residual keys
  have hrest : sortStrings (st2.obj.map Prod.fst)
      = sortStrings
          ((Obj.keys obj).filter (fun k => k ∉ orderFlat top sub)) :=
    sortStrings_eq_of_perm h3
  have hrmem : ∀ x ∈ sortStrings (st2.obj.map Prod.fst),
      x ∈ (Obj.keys obj).filter (fun k => k ∉ orderFlat top sub) := by
    intro x hx
    rw [hrest] at hx
    exact (sortStrings_perm _).mem_iff.mp hx
  have hrnodup : (sortStrings (st2.obj.map Prod.fst)).Nodup := by
    rw [hrest]
    exact (sortStrings_perm _).nodup_iff.mpr (hnd.filter _)
  have hinv3 : OrderInv obj []
      (orderFlat top sub ++ sortStrings (st2.obj.map Prod.fst))
      ((sortStrings (st2.obj.map Prod.fst)).foldl movePair
        (st2.obj, st2.newObj)) := by
    apply OrderInv_foldl obj [] hnd _ (orderFlat top sub) (st2.obj, st2.newObj)
    · intro x hx
      have := hrmem x hx
      simpa using (List.mem_filter.mp this).2
    · exact hrnodup
    · simp [Obj.keys]
    · exact ⟨h1, h2, h3, h4⟩
  have hp3 : (((sortStrings (st2.obj.map Prod.fst)).foldl
          moveKeyRest st2).obj,
        ((sortStrings (st2.obj.map Prod.fst)).foldl
          moveKeyRest st2).newObj)
      = (sortStrings (st2.obj.map Prod.fst)).foldl movePair
          (st2.obj, st2.newObj) := foldl_moveKeyRest_pair _ _
  rw [← hp3] at hinv3
  obtain ⟨g1, _, _, _⟩ := hinv3
  -- changed after the top and sub phases
  have htopnd : top.flatten.Nodup := (List.nodup_append.mp hflat).1
  have hinv1 : OrderInv obj [] top.flatten (top.flatten.foldl movePair (obj, [])) := by
    have h := OrderInv_foldl obj [] hnd top.flatten [] (obj, [])
      (by simp) htopnd (by simp [Obj.keys]) (OrderInv_init obj [] hnd)
    simpa using h
  have hp1 : (st1.obj, st1.newObj) = top.flatten.foldl movePair (obj, []) := by
    rw [htop]
    exact foldl_moveKey_pair _ _
  rw [← hp1] at hinv1
  obtain ⟨_, _, i3, _⟩ := hinv1
  have hc1 : st1.changed = decide (∃ k ∈ top.flatten, k ∈ Obj.keys obj) := by
    rw [htop, foldl_moveKey_changed]
    simp
  have hc2 : st2.changed
      = (st1.changed || decide (∃ k ∈ (sub.map Prod.snd).flatten, k ∈ Obj.keys st1.obj)) := by
    calc st2.changed = (((sub.map Prod.snd).flatten).foldl moveKey st1).changed :=
          congrArg OrderSt.changed (hsub st1)
      _ = _ := foldl_moveKey_changed _ _
  have hc3 : ((sortStrings (st2.obj.map Prod.fst)).foldl
        moveKeyRest st2).changed = st2.changed :=
    foldl_moveKeyRest_changed _ _
  have hchanged : ((sortStrings (st2.obj.map Prod.fst)).foldl
        moveKeyRest st2).changed
      = decide (∃ k ∈ orderFlat top sub, k ∈ Obj.keys obj) := by
    rw [hc3, hc2, hc1]
    have hmem1 : ∀ k, k ∈ Obj.keys st1.obj ↔ (k ∈ Obj.keys obj ∧ k ∉ top.flatten) := by
      intro k
      show k ∈ st1.obj.map Prod.fst ↔ _
      rw [i3.mem_iff, List.mem_filter]
      simp [Obj.keys]
    cases hq : decide (∃ k ∈ top.flatten, k ∈ Obj.keys obj) with
    | true =>
        simp only [Bool.true_or]
        rw [eq_comm, decide_eq_true_eq]
        rw [decide_eq_true_eq] at hq
        obtain ⟨k, hk1, hk2⟩ := hq
        exact ⟨k, by simp [orderFlat, hk1], hk2⟩
    | false =>
        simp only [Bool.false_or]
        rw [decide_eq_decide]
        rw [decide_eq_false_iff_not] at hq
        push_neg at hq
        constructor
        · rintro ⟨k, hk1, hk2⟩
          exact ⟨k, by simp [orderFlat, hk1], ((hmem1 k).mp hk2).1⟩
        · rintro ⟨k, hk1, hk2⟩
          rcases List.mem_append.mp hk1 with h | h
          · exact absurd hk2 (hq k h)
          · refine ⟨k, h, (hmem1 k).mpr ⟨hk2, fun hc => (hq k hc) hk2⟩⟩
  have g1' : ((sortStrings (st2.obj.map Prod.fst)).foldl
        moveKeyRest st2).newObj
      = [] ++ (orderFlat top sub
          ++ sortStrings (st2.obj.map Prod.fst)).filterMap
            (fun k => (Obj.lookup obj k).map (fun v => (k, v))) := g1
  show (Json.obj ((sortStrings (st2.obj.map Prod.fst)).foldl
        moveKeyRest st2).newObj,
      ((sortStrings (st2.obj.map Prod.fst)).foldl
        moveKeyRest st2).changed) = _
  rw [g1', hchanged, hrest]
  simp

/-! ### Lint order conformance (`lint.rs`, `lint_rule`) -/

/-- The expected key sequence the lint pass builds: keys of `ord.top`
groups that exist in the object, in declared order, followed by all
other keys sorted (`lint.rs` lines 266–281).  Note it consults only
`ord.top`, never `ord.sub`. -/
def lintOrderExpected (obj : List (String × Json)) (top : List (List String)) :
    List String :=
  let expected := top.flatten.filter (fun k => k ∈ Obj.keys obj)
  expected ++ sortStrings
    ((Obj.keys obj).filter (fun k => k ∉ expected))

/-- Whether the lint pass reports an order-conformance issue for an
object: `expected != actual`. -/
def lintOrderIssue (obj : List (String × Json)) (top : List (List String)) : Bool :=
  lintOrderExpected obj top ≠ Obj.keys obj

/-! ### Key order of the normalized object -/

theorem lookup_isSome_eq_decide_mem (obj : List (String × Json)) (x : String) :
    (Obj.lookup obj x).isSome = decide (x ∈ Obj.keys obj) := by
  cases hx : Obj.lookup obj x with
  | none =>
      have := (Obj.lookup_eq_none_iff obj x).mp hx
      simp [this]
  | some v =>
      have : x ∈ Obj.keys obj := (Obj.lookup_isSome_iff obj x).mp (by simp [hx])
      simp [this]

/-- Key order of the normalizer output (shared helper). -/
theorem objKeys_apply_order (obj : List (String × Json))
    (top : List (List String)) (sub : List (String × List String))
    (hnd : (Obj.keys obj).Nodup) (hflat : (orderFlat top sub).Nodup) :
    Json.objKeys (apply_order_from (Json.obj obj) top sub).1
      = expectedOrder obj top sub := by
  rw [apply_order_from_spec obj top sub hnd hflat]
  show ((orderFlat top sub
      ++ sortStrings
          ((Obj.keys obj).filter (fun k => k ∉ orderFlat top sub))).filterMap
        (fun k => (Obj.lookup obj k).map (fun v => (k, v)))).map Prod.fst = _
  rw [keys_filterMap_lookup, List.filter_append]
  have hsorted : (sortStrings
      ((Obj.keys obj).filter (fun k => k ∉ orderFlat top sub))).filter
        (fun k => (Obj.lookup obj k).isSome)
      = sortStrings
          ((Obj.keys obj).filter (fun k => k ∉ orderFlat top sub)) := by
    rw [List.filter_eq_self]
    intro a ha
    have h1 : a ∈ (Obj.keys obj).filter (fun k => k ∉ orderFlat top sub) :=
      (sortStrings_perm _).mem_iff.mp ha
    have h2 : a ∈ Obj.keys obj := List.mem_of_mem_filter h1
    rw [lookup_isSome_eq_decide_mem]
    simp [h2]
  rw [hsorted]
  have hconv : ∀ P : List String,
      P.filter (fun k => (Obj.lookup obj k).isSome)
        = P.filter (fun k => k ∈ Obj.keys obj) := by
    intro P
    apply List.filter_congr
    intro x _
    rw [lookup_isSome_eq_decide_mem]
  rw [hconv, expectedOrder, orderFlat, List.filter_append]

/-! ### Lookup/key facts about the normalizer output -/

theorem mem_keys_norm (obj : List (String × Json)) (top : List (List String))
    (sub : List (String × List String)) (hnd : (Obj.keys obj).Nodup)
    (hflat : (orderFlat top sub).Nodup) (k : String) :
    k ∈ Json.objKeys (apply_order_from (Json.obj obj) top sub).1
      ↔ k ∈ Obj.keys obj := by
  rw [objKeys_apply_order obj top sub hnd hflat, expectedOrder]
  simp only [List.mem_append, List.mem_filter, decide_eq_true_eq]
  constructor
  · rintro ((⟨_, h⟩ | ⟨_, h⟩) | h)
    · exact h
    · exact h
    · exact List.mem_of_mem_filter ((sortStrings_perm _).mem_iff.mp h)
  · intro h
    by_cases hf : k ∈ orderFlat top sub
    · rcases List.mem_append.mp hf with h1 | h1
      · exact Or.inl (Or.inl ⟨h1, h⟩)
      · exact Or.inl (Or.inr ⟨h1, h⟩)
    · refine Or.inr ?_
      rw [(sortStrings_perm _).mem_iff, List.mem_filter]
      simp [h, hf]

theorem lookup_norm (obj : List (String × Json)) (top : List (List String))
    (sub : List (String × List String)) (hnd : (Obj.keys obj).Nodup)
    (hflat : (orderFlat top sub).Nodup) (k : String) :
    (fun m => Obj.lookup m k)
        (match (apply_order_from (Json.obj obj) top sub).1 with
          | Json.obj m => m
          | _ => [])
      = Obj.lookup obj k := by
  rw [apply_order_from_spec obj top sub hnd hflat]
  show Obj.lookup ((orderFlat top sub
      ++ sortStrings
          ((Obj.keys obj).filter (fun x => x ∉ orderFlat top sub))).filterMap
        (fun x => (Obj.lookup obj x).map (fun v => (x, v)))) k = _
  rw [lookup_filterMap]
  by_cases hmem : k ∈ orderFlat top sub
      ++ sortStrings
          ((Obj.keys obj).filter (fun x => x ∉ orderFlat top sub))
  · rw [if_pos hmem]
  · rw [if_neg hmem]
    simp only [List.mem_append, not_or] at hmem
    obtain ⟨hm1, hm2⟩ := hmem
    rw [eq_comm, Obj.lookup_eq_none_iff]
    intro hk
    apply hm2
    rw [(sortStrings_perm _).mem_iff, List.mem_filter]
    simp [hk, hm1]

/-! ### Claim C3: normalizer order correctness -/

/-- C3: for every object (distinct keys) and order spec whose groups do
not repeat keys (§3 invariant), the key sequence after normalization is
the present `top`-group keys in declared order, then the present
`sub`-group keys in map-iteration order, then the remaining keys sorted
lexicographically ascending. -/
theorem c3_order_correctness (obj : List (String × Json))
    (top : List (List String)) (sub : List (String × List String))
    (hnd : (Obj.keys obj).Nodup) (hflat : (orderFlat top sub).Nodup) :
    Json.objKeys (apply_order_from (Json.obj obj) top sub).1
      = expectedOrder obj top sub :=
  objKeys_apply_order obj top sub hnd hflat

/-- Witness for C3 at the repository's own unit-test input. -/
theorem c3_order_correctness_witness :
    (Obj.keys [("z", Json.num 1), ("b", Json.num 2), ("a", Json.num 3),
        ("name", Json.str "n"), ("version", Json.str "v")]).Nodup
    ∧ (orderFlat [["name"]] [("meta", ["version"])]).Nodup
    ∧ Json.objKeys (apply_order_from
          (Json.obj [("z", Json.num 1), ("b", Json.num 2), ("a", Json.num 3),
            ("name", Json.str "n"), ("version", Json.str "v")])
          [["name"]] [("meta", ["version"])]).1
        = expectedOrder [("z", Json.num 1), ("b", Json.num 2), ("a", Json.num 3),
            ("name", Json.str "n"), ("version", Json.str "v")]
          [["name"]] [("meta", ["version"])] :=
  ⟨by decide, by decide,
    c3_order_correctness _ _ _ (by decide) (by decide)⟩

/-! ### Claim C2: normalizer idempotence and the `changed` flag -/

/-- C2 counterexample: re-normalizing an already-normalized object does
NOT return `changed=false` — any present `top` key makes `changed` true
again on the second run. -/
theorem c2_counterexample :
    (apply_order_from
        (apply_order_from (Json.obj [("name", Json.str "x")]) [["name"]] []).1
        [["name"]] []).2 = true := by decide

/-- C2 (amended): re-running the normalizer on its own output returns
the identical object (hence identical key order) and the same `changed`
flag as the first run; `changed` is false exactly when zero keys from
`top`/`sub` exist in the object (so the second run repeats the first
run's flag rather than returning false). -/
theorem c2_idempotence_amended (obj : List (String × Json))
    (top : List (List String)) (sub : List (String × List String))
    (hnd : (Obj.keys obj).Nodup) (hflat : (orderFlat top sub).Nodup) :
    apply_order_from (apply_order_from (Json.obj obj) top sub).1 top sub
      = apply_order_from (Json.obj obj) top sub
    ∧ ((apply_order_from (Json.obj obj) top sub).2 = true
        ↔ ∃ k ∈ orderFlat top sub, k ∈ Obj.keys obj) := by
  have hspec := apply_order_from_spec obj top sub hnd hflat
  set L := (orderFlat top sub
      ++ sortStrings
          ((Obj.keys obj).filter (fun k => k ∉ orderFlat top sub))).filterMap
        (fun k => (Obj.lookup obj k).map (fun v => (k, v))) with hL
  -- key list of the first run's output
  have hkeysL : Obj.keys L
      = (orderFlat top sub).filter (fun k => (Obj.lookup obj k).isSome)
        ++ sortStrings
            ((Obj.keys obj).filter (fun k => k ∉ orderFlat top sub)) := by
    show (L.map Prod.fst) = _
    rw [hL, keys_filterMap_lookup, List.filter_append]
    congr 1
    rw [List.filter_eq_self]
    intro a ha
    have h2 : a ∈ Obj.keys obj :=
      List.mem_of_mem_filter ((sortStrings_perm _).mem_iff.mp ha)
    rw [lookup_isSome_eq_decide_mem]
    simp [h2]
  have hmemrest : ∀ x, x ∈ sortStrings
        ((Obj.keys obj).filter (fun k => k ∉ orderFlat top sub))
      ↔ (x ∈ Obj.keys obj ∧ x ∉ orderFlat top sub) := by
    intro x
    rw [(sortStrings_perm _).mem_iff, List.mem_filter]
    simp
  have hmemL : ∀ k, k ∈ Obj.keys L ↔ k ∈ Obj.keys obj := by
    intro k
    rw [hkeysL]
    simp only [List.mem_append, List.mem_filter]
    constructor
    · rintro (⟨_, h⟩ | h)
      · exact (Obj.lookup_isSome_iff obj k).mp (by simpa using h)
      · exact ((hmemrest k).mp h).1
    · intro h
      by_cases hf : k ∈ orderFlat top sub
      · refine Or.inl ⟨hf, ?_⟩
        rw [lookup_isSome_eq_decide_mem]
        simp [h]
      · exact Or.inr ((hmemrest k).mpr ⟨h, hf⟩)
  have hndL : (Obj.keys L).Nodup := by
    rw [hkeysL, List.nodup_append]
    refine ⟨hflat.filter _, ?_, ?_⟩
    · exact (sortStrings_perm _).nodup_iff.mpr (hnd.filter _)
    · intro x hx1 hx2
      have h1 : x ∈ orderFlat top sub := List.mem_of_mem_filter hx1
      exact ((hmemrest x).mp hx2).2 h1
  have hlookL : ∀ k, Obj.lookup L k = Obj.lookup obj k := by
    intro k
    rw [hL, lookup_filterMap]
    by_cases hmem : k ∈ orderFlat top sub
        ++ sortStrings
            ((Obj.keys obj).filter (fun x => x ∉ orderFlat top sub))
    · rw [if_pos hmem]
    · rw [if_neg hmem]
      simp only [List.mem_append, not_or] at hmem
      obtain ⟨hm1, hm2⟩ := hmem
      rw [eq_comm, Obj.lookup_eq_none_iff]
      intro hk
      exact hm2 ((hmemrest k).mpr ⟨hk, hm1⟩)
  have hspec2 := apply_order_from_spec L top sub hndL hflat
  -- the residual keys of the second run are the first run's residuals
  have hres2 : (Obj.keys L).filter (fun k => k ∉ orderFlat top sub)
      = sortStrings
          ((Obj.keys obj).filter (fun k => k ∉ orderFlat top sub)) := by
    rw [hkeysL, List.filter_append]
    have h1 : ((orderFlat top sub).filter
        (fun k => (Obj.lookup obj k).isSome)).filter
          (fun k => k ∉ orderFlat top sub) = [] := by
      rw [List.filter_eq_nil_iff]
      intro a ha
      have : a ∈ orderFlat top sub := List.mem_of_mem_filter ha
      simp [this]
    have h2 : (sortStrings
        ((Obj.keys obj).filter (fun k => k ∉ orderFlat top sub))).filter
          (fun k => k ∉ orderFlat top sub)
        = sortStrings
            ((Obj.keys obj).filter (fun k => k ∉ orderFlat top sub)) := by
      rw [List.filter_eq_self]
      intro a ha
      simp [((hmemrest a).mp ha).2]
    rw [h1, h2, List.nil_append]
  have hsorted2 : sortStrings
      ((Obj.keys L).filter (fun k => k ∉ orderFlat top sub))
      = sortStrings
          ((Obj.keys obj).filter (fun k => k ∉ orderFlat top sub)) := by
    rw [hres2]
    exact sortStrings_of_sorted (sortStrings_sorted _)
  constructor
  · rw [hspec]
    show apply_order_from (Json.obj L) top sub = _
    rw [hspec2, hsorted2, Prod.mk.injEq]
    constructor
    · -- same object: the lookups agree on every key
      show Json.obj _ = Json.obj L
      congr 1
      conv_rhs => rw [hL]
      apply List.filterMap_congr
      intro x _
      rw [hlookL x]
    · rw [decide_eq_decide]
      constructor
      · rintro ⟨k, h1, h2⟩
        exact ⟨k, h1, (hmemL k).mp h2⟩
      · rintro ⟨k, h1, h2⟩
        exact ⟨k, h1, (hmemL k).mpr h2⟩
  · rw [hspec]
    simp

/-- Witness for the amended C2. -/
theorem c2_idempotence_amended_witness :
    (Obj.keys [("name", Json.str "x"), ("a", Json.num 1)]).Nodup
    ∧ (orderFlat [["name"]] []).Nodup
    ∧ (apply_order_from
          (apply_order_from (Json.obj [("name", Json.str "x"), ("a", Json.num 1)])
            [["name"]] []).1 [["name"]] []
        = apply_order_from (Json.obj [("name", Json.str "x"), ("a", Json.num 1)])
            [["name"]] []
      ∧ ((apply_order_from (Json.obj [("name", Json.str "x"), ("a", Json.num 1)])
            [["name"]] []).2 = true
          ↔ ∃ k ∈ orderFlat [["name"]] [],
              k ∈ Obj.keys [("name", Json.str "x"), ("a", Json.num 1)])) :=
  ⟨by decide, by decide,
    c2_idempotence_amended _ _ _ (by decide) (by decide)⟩

/-! ### Claim C4: lint order-conformance vs the normalizer -/

/-- C4 counterexample: with a sub group claiming `version`, the object
`{"name","version","a"}` already has exactly the normalizer's key order,
yet the lint pass reports an order issue (its expected sequence ignores
`order.sub`). -/
theorem c4_counterexample :
    lintOrderIssue
        [("name", Json.num 1), ("version", Json.num 2), ("a", Json.num 3)]
        [["name"]] = true
    ∧ Json.objKeys (apply_order_from
          (Json.obj [("name", Json.num 1), ("version", Json.num 2), ("a", Json.num 3)])
          [["name"]] [("g", ["version"])]).1
        = Obj.keys [("name", Json.num 1), ("version", Json.num 2), ("a", Json.num 3)] := by
  constructor
  · decide
  · decide

/-- C4 (amended): the lint expected sequence consults only `order.top`;
it coincides with the §4.1 normalizer exactly when the order spec has no
sub groups.  For a spec without sub groups the lint pass flags an order
issue iff the object's key sequence differs from the normalizer's
output. -/
theorem c4_lint_order_amended (obj : List (String × Json))
    (top : List (List String))
    (hnd : (Obj.keys obj).Nodup) (htop : top.flatten.Nodup) :
    lintOrderIssue obj top = true
      ↔ Obj.keys obj ≠ Json.objKeys (apply_order_from (Json.obj obj) top []).1 := by
  have hflat : (orderFlat top []).Nodup := by
    rw [orderFlat]
    simpa using htop
  have hkeys : Json.objKeys (apply_order_from (Json.obj obj) top []).1
      = lintOrderExpected obj top := by
    rw [objKeys_apply_order obj top [] hnd hflat, expectedOrder, lintOrderExpected]
    have h0 : (([] : List (String × List String)).map Prod.snd).flatten.filter
        (fun k => k ∈ Obj.keys obj) = [] := by simp
    rw [h0, List.append_nil]
    congr 1
    congr 1
    apply List.filter_congr
    intro x hx
    have hx' : x ∈ Obj.keys obj := hx
    rw [decide_eq_decide]
    constructor
    · intro h1 h2
      apply h1
      rw [orderFlat]
      simpa using List.mem_of_mem_filter h2
    · intro h1 h2
      apply h1
      rw [List.mem_filter]
      rw [orderFlat] at h2
      simp only [List.map_nil, List.flatten_nil, List.append_nil] at h2
      simp [h2, hx']
  rw [lintOrderIssue, hkeys]
  simp only [ne_eq, decide_eq_true_eq]
  constructor
  · intro h hh
    exact h hh.symm
  · intro h hh
    exact h hh.symm

/-- Witness for the amended C4. -/
theorem c4_lint_order_amended_witness :
    (Obj.keys [("b", Json.num 1), ("name", Json.num 2)]).Nodup
    ∧ ([["name"]] : List (List String)).flatten.Nodup
    ∧ (lintOrderIssue [("b", Json.num 1), ("name", Json.num 2)] [["name"]] = true
        ↔ Obj.keys [("b", Json.num 1), ("name", Json.num 2)]
            ≠ Json.objKeys (apply_order_from
                (Json.obj [("b", Json.num 1), ("name", Json.num 2)]) [["name"]] []).1) :=
  ⟨by decide, by decide,
    c4_lint_order_amended _ _ (by decide) (by decide)⟩

/-! ### Structural Merge Engine (`sync.rs`, `apply_json_merge`)

`utils.rs` is not among the provided sources; `utils::get_json_path` is
modelled from the spec (§4.4: "Path resolution is a dotted-key walk
from the document root; a path segment that does not resolve through an
object context aborts that single path's update silently"), using the
same dotted-path syntax the in-source `set_path` closure parses. -/

/-- `str::trim`: strip leading and trailing whitespace. -/
def trimChars (l : List Char) : List Char :=
  ((l.dropWhile Char.isWhitespace).reverse.dropWhile Char.isWhitespace).reverse

/-- `str::split('.')`: split a char list on dots (empty pieces kept, as
in Rust; the caller filters them). -/
def splitDots : List Char → List (List Char)
  | [] => [[]]
  | c :: rest =>
      if c = '.' then [] :: splitDots rest
      else
        match splitDots rest with
        | [] => [[c]]
        | g :: gs => (c :: g) :: gs

/-- Path parsing as done by the `set_path` closure:
`path.trim().trim_start_matches('$').trim_start_matches('.')`, split on
`'.'`, empty segments dropped. -/
def parsePath (s : String) : List String :=
  let t := ((trimChars s.data).dropWhile (fun c => c = '$')).dropWhile (fun c => c = '.')
  ((splitDots t).map (fun cs => String.mk cs)).filter (fun seg => seg ≠ "")

/-- Modelled from the spec: `utils::get_json_path` (the `utils.rs` file
is absent from the sources) — the §4.4 dotted-key walk from the root;
a segment that does not resolve through an object yields `none`. -/
def getSegs : Json → List String → Option Json
  | j, [] => some j
  | .obj m, s :: rest =>
      match Obj.lookup m s with
      | some v => getSegs v rest
      | none => none
  | _, _ :: _ => none

/-- Modelled from the spec: `utils::get_json_path` on a dotted path. -/
def get_json_path (j : Json) (path : String) : Option Json :=
  getSegs j (parsePath path)

/-- The `set_path` closure of `apply_json_merge` on parsed segments:
walk the prefix inserting empty objects for missing keys, abort on a
non-object, then insert (`Some`) or `swap_remove` (`None`) the last
segment. -/
def setSegs : Json → List String → Option Json → Json
  | _, [], some v => v
  | _, [], none => .null
  | root, s :: rest, v =>
      match rest with
      | [] =>
          match root with
          | .obj m =>
              match v with
              | some x => .obj (Obj.insert m s x)
              | none => .obj (Obj.swapRemove m s)
          | other => other
      | _ :: _ =>
          match root with
          | .obj m => .obj (Obj.insert m s (setSegs ((Obj.lookup m s).getD (Json.obj [])) rest v))
          | other => other

/-- The `set_path` closure of `apply_json_merge`. -/
def set_path (root : Json) (path : String) (v : Option Json) : Json :=
  setSegs root (parsePath path) v

/-- `[sync.config.<id>].merge` (config.rs `SyncClientMergeCfg`); the
`array` HashMap is embedded as an association list in iteration order. -/
structure SyncClientMergeCfg where
  keep_paths : List String
  override_paths : List String
  nosync_paths : List String
  array : List (String × String)

/-- One `override_paths` step: re-set the source's value when present. -/
def applyOverridePath (srcJson : Json) (result : Json) (p : String) : Json :=
  match get_json_path srcJson p with
  | some v => set_path result p (some v)
  | none => result

/-- One `keep_paths`/`nosync_paths` step: keep the target's value when
present, else clear the path from the result. -/
def applyKeepPath (dstJson : Json) (result : Json) (p : String) : Json :=
  match get_json_path dstJson p with
  | some v => set_path result p (some v)
  | none => set_path result p none

/-- `union` array strategy: target elements first, then each source
element not already present by value equality. -/
def unionArrays (da sa : List Json) : List Json :=
  sa.foldl (fun merged it => if it ∈ merged then merged else merged ++ [it]) da

/-- One `arrayStrategy` step. -/
def applyArrayPath (srcJson dstJson : Json) (result : Json)
    (entry : String × String) : Json :=
  if entry.2 = "union" then
    match get_json_path srcJson entry.1 with
    | some (.arr sa) =>
        set_path result entry.1
          (some (.arr (unionArrays (((get_json_path dstJson entry.1).bind Json.asArray).getD []) sa)))
    | _ => result
  else
    match get_json_path srcJson entry.1 with
    | some v => set_path result entry.1 (some v)
    | none => result

/-- The pure assembly of `apply_json_merge` (sync.rs lines 204–286):
start from a clone of the source, apply `override`, then `keep`, then
`noSync`, then the array strategies. -/
def mergeResult (srcJson dstJson : Json) (cfg : SyncClientMergeCfg) : Json :=
  let r1 := cfg.override_paths.foldl (applyOverridePath srcJson) srcJson
  let r2 := cfg.keep_paths.foldl (applyKeepPath dstJson) r1
  let r3 := cfg.nosync_paths.foldl (applyKeepPath dstJson) r2
  cfg.array.foldl (applyArrayPath srcJson dstJson) r3

/-- The tail of `apply_json_merge` (lines 288–308): serialize, compare
fingerprints with the current target text, decide `would_write`.
`serialize` models `serde_json::to_string_pretty`, `fp` the
`DefaultHasher`-based `fingerprint`, `parse` `serde_json::from_str`;
all three are external library functions passed as parameters. -/
def mergeRun (serialize : Json → String) (fp : String → String)
    (parse : String → Option Json) (srcJson : Json) (dstStr : Option String)
    (cfg : SyncClientMergeCfg) : String × Bool :=
  let dstJson : Json :=
    match dstStr with
    | some s => (parse s).getD Json.null
    | none => Json.null
  let result := mergeResult srcJson dstJson cfg
  let outStr := serialize result
  let curFp := dstStr.map fp
  if some (fp outStr) = curFp then (outStr, false) else (outStr, true)

/-! ### Well-formedness lemmas -/

theorem wfFields_iff (m : List (String × Json)) :
    Json.wfFields m = true ↔ ∀ e ∈ m, Json.wf e.2 = true := by
  induction m with
  | nil => simp [Json.wfFields]
  | cons e rest ih =>
      obtain ⟨k, v⟩ := e
      simp [Json.wfFields, Bool.and_eq_true, ih]

theorem wfList_iff (l : List Json) :
    Json.wfList l = true ↔ ∀ e ∈ l, Json.wf e = true := by
  induction l with
  | nil => simp [Json.wfList]
  | cons x xs ih => simp [Json.wfList, Bool.and_eq_true, ih]

theorem wf_obj_iff (m : List (String × Json)) :
    Json.wf (.obj m) = true ↔ ((m.map Prod.fst).Nodup ∧ ∀ e ∈ m, Json.wf e.2 = true) := by
  rw [Json.wf]
  simp only [Bool.and_eq_true, decide_eq_true_eq, wfFields_iff]

theorem wf_arr_iff (l : List Json) :
    Json.wf (.arr l) = true ↔ ∀ e ∈ l, Json.wf e = true := by
  rw [Json.wf]
  exact wfList_iff l

theorem wf_empty_obj : Json.wf (.obj []) = true := by
  rw [wf_obj_iff]
  simp

theorem wf_lookup (m : List (String × Json)) (k : String) (v : Json)
    (hm : Json.wf (.obj m) = true) (h : Obj.lookup m k = some v) :
    Json.wf v = true :=
  ((wf_obj_iff m).mp hm).2 (k, v) (Obj.lookup_mem m k v h)

theorem mem_insert_cases (m : List (String × Json)) (k : String) (v : Json)
    (e : String × Json) (h : e ∈ Obj.insert m k v) : e = (k, v) ∨ e ∈ m := by
  induction m with
  | nil => simpa [Obj.insert] using h
  | cons f rest ih =>
      obtain ⟨k', v'⟩ := f
      by_cases hk : k' = k
      · simp only [Obj.insert, if_pos hk] at h
        rcases List.mem_cons.mp h with h1 | h1
        · exact Or.inl h1
        · exact Or.inr (List.mem_cons_of_mem _ h1)
      · simp only [Obj.insert, if_neg hk] at h
        rcases List.mem_cons.mp h with h1 | h1
        · exact Or.inr (h1 ▸ List.mem_cons_self _ _)
        · rcases ih h1 with h2 | h2
          · exact Or.inl h2
          · exact Or.inr (List.mem_cons_of_mem _ h2)

theorem keys_insert_mem (m : List (String × Json)) (k : String) (v : Json)
    (h : k ∈ Obj.keys m) : Obj.keys (Obj.insert m k v) = Obj.keys m := by
  induction m with
  | nil => simp [Obj.keys] at h
  | cons f rest ih =>
      obtain ⟨k', v'⟩ := f
      by_cases hk : k' = k
      · subst hk
        simp [Obj.insert, Obj.keys]
      · simp only [Obj.keys, List.map_cons, List.mem_cons] at h
        rcases h with h1 | h1
        · exact absurd h1.symm hk
        · have hr := ih h1
          simp only [Obj.keys] at hr
          simp [Obj.insert, hk, Obj.keys, hr]

theorem wf_insert (m : List (String × Json)) (k : String) (v : Json)
    (hm : Json.wf (.obj m) = true) (hv : Json.wf v = true) :
    Json.wf (.obj (Obj.insert m k v)) = true := by
  rw [wf_obj_iff] at hm ⊢
  obtain ⟨h1, h2⟩ := hm
  constructor
  · by_cases hk : k ∈ Obj.keys m
    · show (Obj.keys (Obj.insert m k v)).Nodup
      rw [keys_insert_mem m k v hk]
      exact h1
    · show (Obj.keys (Obj.insert m k v)).Nodup
      rw [Obj.keys_insert_of_not_mem m k v hk]
      simp only [List.nodup_append, List.nodup_cons, List.not_mem_nil, List.nodup_nil]
      exact ⟨h1, by simp, by simpa [List.disjoint_singleton] using hk⟩
  · intro e he
    rcases mem_insert_cases m k v e he with rfl | h3
    · exact hv
    · exact h2 e h3

theorem wf_swapRemove (m : List (String × Json)) (k : String)
    (hm : Json.wf (.obj m) = true) :
    Json.wf (.obj (Obj.swapRemove m k)) = true := by
  rw [wf_obj_iff] at hm ⊢
  obtain ⟨h1, h2⟩ := hm
  refine ⟨Obj.nodup_keys_swapRemove m k h1, ?_⟩
  intro e he
  have h3 : e ∈ m.eraseP (fun e => e.1 = k) := (Obj.swapRemove_perm m k).mem_iff.mp he
  exact h2 e (List.mem_of_mem_eraseP h3)

theorem wf_getSegs (x : Json) (π : List String) (v : Json)
    (hx : Json.wf x = true) (h : getSegs x π = some v) : Json.wf v = true := by
  induction π generalizing x with
  | nil =>
      simp only [getSegs] at h
      exact Option.some.inj h ▸ hx
  | cons s rest ih =>
      cases x with
      | obj m =>
          simp only [getSegs] at h
          cases hl : Obj.lookup m s with
          | none => rw [hl] at h; exact absurd h (by simp)
          | some c =>
              rw [hl] at h
              exact ih c (wf_lookup m s c hx hl) h
      | null => exact absurd h (by simp [getSegs])
      | bool b => exact absurd h (by simp [getSegs])
      | num n => exact absurd h (by simp [getSegs])
      | str t => exact absurd h (by simp [getSegs])
      | arr l => exact absurd h (by simp [getSegs])

/-! ### Blocked/unblocked path walks -/

/-- Whether the `set_path` walk along the segments stays in object
context: false exactly when it meets an existing non-object before the
last segment, or the root of the final step is not an object. -/
def unblocked : Json → List String → Bool
  | _, [] => true
  | x, s :: rest =>
      match x with
      | .obj m =>
          match Obj.lookup m s with
          | some v => unblocked v rest
          | none => true
      | _ => false

theorem unblocked_empty (π : List String) : unblocked (Json.obj []) π = true := by
  cases π with
  | nil => rfl
  | cons s rest => simp [unblocked, Obj.lookup]

theorem unblocked_obj_single (m : List (String × Json)) (s : String) :
    unblocked (Json.obj m) [s] = true := by
  simp only [unblocked]
  cases Obj.lookup m s <;> simp [unblocked]

theorem unblocked_of_getSegs (x : Json) (π : List String) (v : Json)
    (h : getSegs x π = some v) : unblocked x π = true := by
  induction π generalizing x with
  | nil => rfl
  | cons s rest ih =>
      cases x with
      | obj m =>
          cases hl : Obj.lookup m s with
          | none =>
              exfalso
              simp [getSegs, hl] at h
          | some c =>
              simp only [getSegs, hl] at h
              simp only [unblocked, hl]
              exact ih c h
      | null => exact absurd h (by simp [getSegs])
      | bool b => exact absurd h (by simp [getSegs])
      | num n => exact absurd h (by simp [getSegs])
      | str t => exact absurd h (by simp [getSegs])
      | arr l => exact absurd h (by simp [getSegs])

theorem getSegs_of_blocked (x : Json) (π : List String)
    (h : unblocked x π = false) : getSegs x π = none := by
  cases hg : getSegs x π with
  | none => rfl
  | some v =>
      rw [unblocked_of_getSegs x π v hg] at h
      exact absurd h (by simp)

/-! ### Set/get lemmas for `setSegs` -/

theorem setSegs_single_some (m : List (String × Json)) (s : String) (w : Json) :
    setSegs (Json.obj m) [s] (some w) = Json.obj (Obj.insert m s w) := rfl

theorem setSegs_single_none (m : List (String × Json)) (s : String) :
    setSegs (Json.obj m) [s] none = Json.obj (Obj.swapRemove m s) := rfl

theorem setSegs_cons₂ (m : List (String × Json)) (s r : String)
    (rest' : List String) (v : Option Json) :
    setSegs (Json.obj m) (s :: r :: rest') v
      = Json.obj (Obj.insert m s
          (setSegs ((Obj.lookup m s).getD (Json.obj [])) (r :: rest') v)) := by
  simp only [setSegs]

theorem unblocked_cons_lookup (m : List (String × Json)) (s : String)
    (rest : List String) (c : Json) (hl : Obj.lookup m s = some c) :
    unblocked (Json.obj m) (s :: rest) = unblocked c rest := by
  simp [unblocked, hl]

theorem unblocked_cons_missing (m : List (String × Json)) (s : String)
    (rest : List String) (hl : Obj.lookup m s = none) :
    unblocked (Json.obj m) (s :: rest) = true := by
  simp [unblocked, hl]

theorem getSegs_cons_lookup (m : List (String × Json)) (s : String)
    (rest : List String) (c : Json) (hl : Obj.lookup m s = some c) :
    getSegs (Json.obj m) (s :: rest) = getSegs c rest := by
  simp [getSegs, hl]

theorem getSegs_cons_missing (m : List (String × Json)) (s : String)
    (rest : List String) (hl : Obj.lookup m s = none) :
    getSegs (Json.obj m) (s :: rest) = none := by
  simp [getSegs, hl]

/-- Setting through an unblocked walk puts the value at the path. -/
theorem getSegs_setSegs_some (x : Json) (π : List String) (v : Json)
    (hub : unblocked x π = true) :
    getSegs (setSegs x π (some v)) π = some v := by
  induction π generalizing x with
  | nil => simp [setSegs, getSegs]
  | cons s rest ih =>
      cases x with
      | obj m =>
          cases rest with
          | nil =>
              rw [setSegs_single_some,
                getSegs_cons_lookup _ s [] v (Obj.lookup_insert_self m s v)]
              simp [getSegs]
          | cons r rest' =>
              rw [setSegs_cons₂,
                getSegs_cons_lookup _ s _ _ (Obj.lookup_insert_self m s _)]
              cases hl : Obj.lookup m s with
              | some c =>
                  rw [unblocked_cons_lookup m s _ c hl] at hub
                  rw [Option.getD_some]
                  exact ih c hub
              | none =>
                  rw [Option.getD_none]
                  exact ih (Json.obj []) (unblocked_empty _)
      | null => simp [unblocked] at hub
      | bool b => simp [unblocked] at hub
      | num n => simp [unblocked] at hub
      | str t => simp [unblocked] at hub
      | arr l => simp [unblocked] at hub

/-- A blocked set is the identity (the abort of the `set_path` walk). -/
theorem setSegs_of_blocked (x : Json) (π : List String) (v : Option Json)
    (hub : unblocked x π = false) : setSegs x π v = x := by
  induction π generalizing x with
  | nil => simp [unblocked] at hub
  | cons s rest ih =>
      cases x with
      | obj m =>
          cases rest with
          | nil => rw [unblocked_obj_single] at hub; exact absurd hub (by simp)
          | cons r rest' =>
              rw [setSegs_cons₂]
              cases hl : Obj.lookup m s with
              | none =>
                  rw [unblocked_cons_missing m s _ hl] at hub
                  exact absurd hub (by simp)
              | some c =>
                  rw [unblocked_cons_lookup m s _ c hl] at hub
                  rw [Option.getD_some, ih c hub, Obj.insert_lookup_self m s c hl]
      | null => cases rest <;> simp [setSegs]
      | bool b => cases rest <;> simp [setSegs]
      | num n => cases rest <;> simp [setSegs]
      | str t => cases rest <;> simp [setSegs]
      | arr l => cases rest <;> simp [setSegs]

/-- Clearing a path always leaves nothing at it (for well-formed
documents): on abort the walk could not have resolved either. -/
theorem getSegs_setSegs_none (x : Json) (π : List String)
    (hx : Json.wf x = true) (hπ : π ≠ []) :
    getSegs (setSegs x π none) π = none := by
  induction π generalizing x with
  | nil => exact absurd rfl hπ
  | cons s rest ih =>
      cases x with
      | obj m =>
          cases rest with
          | nil =>
              rw [setSegs_single_none]
              exact getSegs_cons_missing _ s []
                (Obj.lookup_swapRemove_self m s ((wf_obj_iff m).mp hx).1)
          | cons r rest' =>
              rw [setSegs_cons₂,
                getSegs_cons_lookup _ s _ _ (Obj.lookup_insert_self m s _)]
              cases hl : Obj.lookup m s with
              | some c =>
                  rw [Option.getD_some]
                  exact ih c (wf_lookup m s c hx hl) (by simp)
              | none =>
                  rw [Option.getD_none]
                  exact ih (Json.obj []) wf_empty_obj (by simp)
      | null => cases rest <;> simp [setSegs, getSegs]
      | bool b => cases rest <;> simp [setSegs, getSegs]
      | num n => cases rest <;> simp [setSegs, getSegs]
      | str t => cases rest <;> simp [setSegs, getSegs]
      | arr l => cases rest <;> simp [setSegs, getSegs]

/-- Re-setting a value that is already there is the identity. -/
theorem setSegs_self (x : Json) (π : List String) (v : Json)
    (h : getSegs x π = some v) : setSegs x π (some v) = x := by
  induction π generalizing x with
  | nil =>
      simp only [getSegs] at h
      simp [setSegs, Option.some.inj h]
  | cons s rest ih =>
      cases x with
      | obj m =>
          cases hl : Obj.lookup m s with
          | none =>
              exfalso
              rw [getSegs_cons_missing m s _ hl] at h
              exact absurd h (by simp)
          | some c =>
              rw [getSegs_cons_lookup m s _ c hl] at h
              cases rest with
              | nil =>
                  simp only [getSegs] at h
                  have hcv : c = v := Option.some.inj h
                  subst hcv
                  rw [setSegs_single_some, Obj.insert_lookup_self m s c hl]
              | cons r rest' =>
                  rw [setSegs_cons₂, hl, Option.getD_some, ih c h,
                    Obj.insert_lookup_self m s c hl]
      | null => exact absurd h (by simp [getSegs])
      | bool b => exact absurd h (by simp [getSegs])
      | num n => exact absurd h (by simp [getSegs])
      | str t => exact absurd h (by simp [getSegs])
      | arr l => exact absurd h (by simp [getSegs])

/-- `setSegs` preserves well-formedness when the written value is
well-formed. -/
theorem wf_setSegs (x : Json) (π : List String) (v : Option Json)
    (hx : Json.wf x = true) (hv : ∀ w, v = some w → Json.wf w = true) :
    Json.wf (setSegs x π v) = true := by
  induction π generalizing x with
  | nil =>
      cases v with
      | some w => simp only [setSegs]; exact hv w rfl
      | none => simp [setSegs, Json.wf]
  | cons s rest ih =>
      cases x with
      | obj m =>
          cases rest with
          | nil =>
              cases v with
              | some w => exact wf_insert m s w hx (hv w rfl)
              | none => exact wf_swapRemove m s hx
          | cons r rest' =>
              rw [setSegs_cons₂]
              apply wf_insert m s _ hx
              apply ih
              cases hl : Obj.lookup m s with
              | some c => simpa [hl] using wf_lookup m s c hx hl
              | none => simp [hl, wf_empty_obj]
      | null => cases rest <;> simp only [setSegs] <;> exact hx
      | bool b => cases rest <;> simp only [setSegs] <;> exact hx
      | num n => cases rest <;> simp only [setSegs] <;> exact hx
      | str t => cases rest <;> simp only [setSegs] <;> exact hx
      | arr l => cases rest <;> simp only [setSegs] <;> exact hx

theorem unblocked_setSegs_of_unblocked (x : Json) (π : List String)
    (v : Option Json) (hub : unblocked x π = true) :
    unblocked (setSegs x π v) π = true := by
  induction π generalizing x with
  | nil => simp [unblocked]
  | cons s rest ih =>
      cases x with
      | obj m =>
          cases rest with
          | nil =>
              cases v with
              | some w => rw [setSegs_single_some, unblocked_obj_single]
              | none => rw [setSegs_single_none, unblocked_obj_single]
          | cons r rest' =>
              rw [setSegs_cons₂,
                unblocked_cons_lookup _ s _ _ (Obj.lookup_insert_self m s _)]
              cases hl : Obj.lookup m s with
              | some c =>
                  rw [unblocked_cons_lookup m s _ c hl] at hub
                  rw [Option.getD_some]
                  exact ih c hub
              | none =>
                  rw [Option.getD_none]
                  exact ih (Json.obj []) (unblocked_empty _)
      | null => simp [unblocked] at hub
      | bool b => simp [unblocked] at hub
      | num n => simp [unblocked] at hub
      | str t => simp [unblocked] at hub
      | arr l => simp [unblocked] at hub

/-- Setting at a path does not change whether that path is blocked. -/
theorem unblocked_setSegs_same (x : Json) (π : List String) (v : Option Json) :
    unblocked (setSegs x π v) π = unblocked x π := by
  cases hub : unblocked x π with
  | false => rw [setSegs_of_blocked x π v hub, hub]
  | true => exact unblocked_setSegs_of_unblocked x π v hub

/-! ### Frame lemmas: writes at one path do not disturb an
incomparable path -/

/-- Whether `a` is a prefix of `b` (as segment lists). -/
def segPrefixB : List String → List String → Bool
  | [], _ => true
  | _ :: _, [] => false
  | a :: as, b :: bs => if a = b then segPrefixB as bs else false

/-- Two paths are compatible for the merge invariants when they are
equal or neither is a prefix of the other. -/
def PathCompat (a b : List String) : Prop :=
  a = b ∨ (segPrefixB a b = false ∧ segPrefixB b a = false)

theorem segPrefixB_nil (b : List String) : segPrefixB [] b = true := rfl

/-- A fresh chain built by `setSegs` from an empty object has nothing at
an incomparable path. -/
theorem getSegs_chain_incomp (ρ π : List String) (v : Option Json)
    (h1 : segPrefixB ρ π = false) (h2 : segPrefixB π ρ = false) :
    getSegs (setSegs (Json.obj []) ρ v) π = none := by
  induction ρ generalizing π with
  | nil => exact absurd h1 (by simp [segPrefixB])
  | cons r ρ' ih =>
      cases π with
      | nil => exact absurd h2 (by simp [segPrefixB])
      | cons p π' =>
          by_cases hrp : r = p
          · subst hrp
            simp only [segPrefixB, if_pos rfl] at h1 h2
            cases ρ' with
            | nil =>
                cases v with
                | some w =>
                    rw [setSegs_single_some]
                    cases π' with
                    | nil => exact absurd h1 (by simp [segPrefixB])
                    | cons q π'' =>
                        rw [getSegs_cons_lookup _ r _ w
                          (Obj.lookup_insert_self [] r w)]
                        cases w with
                        | obj mw => exact absurd h1 (by simp [segPrefixB])
                        | null => exact absurd h1 (by simp [segPrefixB])
                        | bool b => exact absurd h1 (by simp [segPrefixB])
                        | num n => exact absurd h1 (by simp [segPrefixB])
                        | str t => exact absurd h1 (by simp [segPrefixB])
                        | arr l => exact absurd h1 (by simp [segPrefixB])
                | none =>
                    show getSegs (setSegs (Json.obj []) [r] none) (r :: π') = none
                    rw [setSegs_single_none]
                    exact getSegs_cons_missing _ r _ (by simp [Obj.swapRemove, Obj.lookup])
            | cons r2 ρ'' =>
                rw [setSegs_cons₂,
                  getSegs_cons_lookup _ r _ _ (Obj.lookup_insert_self [] r _)]
                show getSegs (setSegs ((Obj.lookup [] r).getD (Json.obj [])) (r2 :: ρ'') v) π' = none
                exact ih π' h1 h2
          · cases ρ' with
            | nil =>
                cases v with
                | some w =>
                    rw [setSegs_single_some]
                    apply getSegs_cons_missing
                    rw [Obj.lookup_insert_other [] r p w (fun hh => hrp hh.symm)]
                    rfl
                | none =>
                    rw [setSegs_single_none]
                    exact getSegs_cons_missing _ p _ (by simp [Obj.swapRemove, Obj.lookup])
            | cons r2 ρ'' =>
                rw [setSegs_cons₂]
                apply getSegs_cons_missing
                rw [Obj.lookup_insert_other [] r p _ (fun hh => hrp hh.symm)]
                rfl

/-- A fresh chain built by `setSegs` from an empty object is unblocked
at an incomparable path. -/
theorem unblocked_chain_incomp (ρ π : List String) (v : Option Json)
    (h1 : segPrefixB ρ π = false) (h2 : segPrefixB π ρ = false) :
    unblocked (setSegs (Json.obj []) ρ v) π = true := by
  cases hg : getSegs (setSegs (Json.obj []) ρ v) π with
  | some w =>
      rw [getSegs_chain_incomp ρ π v h1 h2] at hg
      exact absurd hg (by simp)
  | none =>
      -- walk the structure directly
      clear hg
      induction ρ generalizing π with
      | nil => exact absurd h1 (by simp [segPrefixB])
      | cons r ρ' ih =>
          cases π with
          | nil => simp [unblocked]
          | cons p π' =>
              by_cases hrp : r = p
              · subst hrp
                simp only [segPrefixB, if_pos rfl] at h1 h2
                cases ρ' with
                | nil =>
                    cases v with
                    | some w =>
                        rw [setSegs_single_some]
                        cases π' with
                        | nil => exact unblocked_obj_single _ _
                        | cons q π'' =>
                            rw [unblocked_cons_lookup _ r _ w
                              (Obj.lookup_insert_self [] r w)]
                            cases w with
                            | obj mw => exact absurd h1 (by simp [segPrefixB])
                            | null => exact absurd h1 (by simp [segPrefixB])
                            | bool b => exact absurd h1 (by simp [segPrefixB])
                            | num n => exact absurd h1 (by simp [segPrefixB])
                            | str t => exact absurd h1 (by simp [segPrefixB])
                            | arr l => exact absurd h1 (by simp [segPrefixB])
                    | none =>
                        rw [setSegs_single_none]
                        cases π' with
                        | nil => exact unblocked_obj_single _ _
                        | cons q π'' =>
                            exact unblocked_cons_missing _ r _
                              (by simp [Obj.swapRemove, Obj.lookup])
                | cons r2 ρ'' =>
                    rw [setSegs_cons₂,
                      unblocked_cons_lookup _ r _ _ (Obj.lookup_insert_self [] r _)]
                    show unblocked (setSegs ((Obj.lookup [] r).getD (Json.obj [])) (r2 :: ρ'') v) π' = true
                    exact ih π' h1 h2
              · cases ρ' with
                | nil =>
                    cases v with
                    | some w =>
                        rw [setSegs_single_some]
                        apply unblocked_cons_missing
                        rw [Obj.lookup_insert_other [] r p w (fun hh => hrp hh.symm)]
                        rfl
                    | none =>
                        rw [setSegs_single_none]
                        exact unblocked_cons_missing _ p _ (by simp [Obj.swapRemove, Obj.lookup])
                | cons r2 ρ'' =>
                    rw [setSegs_cons₂]
                    apply unblocked_cons_missing
                    rw [Obj.lookup_insert_other [] r p _ (fun hh => hrp hh.symm)]
                    rfl

/-- Frame property: a set at `ρ` does not change what an incomparable
path `π` resolves to. -/
theorem getSegs_setSegs_incomp (x : Json) (ρ π : List String) (v : Option Json)
    (hx : Json.wf x = true)
    (h1 : segPrefixB ρ π = false) (h2 : segPrefixB π ρ = false) :
    getSegs (setSegs x ρ v) π = getSegs x π := by
  induction ρ generalizing x π with
  | nil => exact absurd h1 (by simp [segPrefixB])
  | cons r ρ' ih =>
      cases π with
      | nil => exact absurd h2 (by simp [segPrefixB])
      | cons p π' =>
          cases x with
          | obj m =>
              by_cases hrp : r = p
              · subst hrp
                simp only [segPrefixB, if_pos rfl] at h1 h2
                cases ρ' with
                | nil => exact absurd h1 (by simp [segPrefixB])
                    -- `ρ = [r]` is a prefix of `π = r :: π'` unless `π' = []`,
                    -- which `h2` likewise excludes: contradiction either way
                | cons r2 ρ'' =>
                    rw [setSegs_cons₂,
                      getSegs_cons_lookup _ r _ _ (Obj.lookup_insert_self m r _)]
                    cases hl : Obj.lookup m r with
                    | some c =>
                        rw [Option.getD_some, getSegs_cons_lookup m r _ c hl]
                        exact ih c π' (wf_lookup m r c hx hl) h1 h2
                    | none =>
                        rw [Option.getD_none, getSegs_cons_missing m r _ hl]
                        exact getSegs_chain_incomp (r2 :: ρ'') π' v h1 h2
              · have hpr : ¬ p = r := fun hh => hrp hh.symm
                cases ρ' with
                | nil =>
                    cases v with
                    | some w =>
                        rw [setSegs_single_some]
                        show getSegs (Json.obj (Obj.insert m r w)) (p :: π') = _
                        cases hl : Obj.lookup m p with
                        | some c =>
                            rw [getSegs_cons_lookup _ p _ c
                              (by rw [Obj.lookup_insert_other m r p w hpr]; exact hl),
                              getSegs_cons_lookup m p _ c hl]
                        | none =>
                            rw [getSegs_cons_missing _ p _
                              (by rw [Obj.lookup_insert_other m r p w hpr]; exact hl),
                              getSegs_cons_missing m p _ hl]
                    | none =>
                        rw [setSegs_single_none]
                        have hnd : (m.map Prod.fst).Nodup := ((wf_obj_iff m).mp hx).1
                        cases hl : Obj.lookup m p with
                        | some c =>
                            rw [getSegs_cons_lookup _ p _ c
                              (by rw [Obj.lookup_swapRemove_other m r p hnd hpr]; exact hl),
                              getSegs_cons_lookup m p _ c hl]
                        | none =>
                            rw [getSegs_cons_missing _ p _
                              (by rw [Obj.lookup_swapRemove_other m r p hnd hpr]; exact hl),
                              getSegs_cons_missing m p _ hl]
                | cons r2 ρ'' =>
                    rw [setSegs_cons₂]
                    cases hl : Obj.lookup m p with
                    | some c =>
                        rw [getSegs_cons_lookup _ p _ c
                          (by rw [Obj.lookup_insert_other m r p _ hpr]; exact hl),
                          getSegs_cons_lookup m p _ c hl]
                    | none =>
                        rw [getSegs_cons_missing _ p _
                          (by rw [Obj.lookup_insert_other m r p _ hpr]; exact hl),
                          getSegs_cons_missing m p _ hl]
          | null => cases ρ' <;> simp [setSegs]
          | bool b => cases ρ' <;> simp [setSegs]
          | num n => cases ρ' <;> simp [setSegs]
          | str t => cases ρ' <;> simp [setSegs]
          | arr l => cases ρ' <;> simp [setSegs]

/-- Frame property for blockedness: a set at `ρ` does not change whether
an incomparable path `π` is blocked. -/
theorem unblocked_setSegs_incomp (x : Json) (ρ π : List String) (v : Option Json)
    (hx : Json.wf x = true)
    (h1 : segPrefixB ρ π = false) (h2 : segPrefixB π ρ = false) :
    unblocked (setSegs x ρ v) π = unblocked x π := by
  induction ρ generalizing x π with
  | nil => exact absurd h1 (by simp [segPrefixB])
  | cons r ρ' ih =>
      cases π with
      | nil => exact absurd h2 (by simp [segPrefixB])
      | cons p π' =>
          cases x with
          | obj m =>
              by_cases hrp : r = p
              · subst hrp
                simp only [segPrefixB, if_pos rfl] at h1 h2
                cases ρ' with
                | nil => exact absurd h1 (by simp [segPrefixB])
                | cons r2 ρ'' =>
                    rw [setSegs_cons₂,
                      unblocked_cons_lookup _ r _ _ (Obj.lookup_insert_self m r _)]
                    cases hl : Obj.lookup m r with
                    | some c =>
                        rw [Option.getD_some, unblocked_cons_lookup m r _ c hl]
                        exact ih c π' (wf_lookup m r c hx hl) h1 h2
                    | none =>
                        rw [Option.getD_none, unblocked_cons_missing m r _ hl]
                        exact unblocked_chain_incomp (r2 :: ρ'') π' v h1 h2
              · have hpr : ¬ p = r := fun hh => hrp hh.symm
                cases ρ' with
                | nil =>
                    cases v with
                    | some w =>
                        rw [setSegs_single_some]
                        cases hl : Obj.lookup m p with
                        | some c =>
                            rw [unblocked_cons_lookup _ p _ c
                              (by rw [Obj.lookup_insert_other m r p w hpr]; exact hl),
                              unblocked_cons_lookup m p _ c hl]
                        | none =>
                            rw [unblocked_cons_missing _ p _
                              (by rw [Obj.lookup_insert_other m r p w hpr]; exact hl),
                              unblocked_cons_missing m p _ hl]
                    | none =>
                        rw [setSegs_single_none]
                        have hnd : (m.map Prod.fst).Nodup := ((wf_obj_iff m).mp hx).1
                        cases hl : Obj.lookup m p with
                        | some c =>
                            rw [unblocked_cons_lookup _ p _ c
                              (by rw [Obj.lookup_swapRemove_other m r p hnd hpr]; exact hl),
                              unblocked_cons_lookup m p _ c hl]
                        | none =>
                            rw [unblocked_cons_missing _ p _
                              (by rw [Obj.lookup_swapRemove_other m r p hnd hpr]; exact hl),
                              unblocked_cons_missing m p _ hl]
                | cons r2 ρ'' =>
                    rw [setSegs_cons₂]
                    cases hl : Obj.lookup m p with
                    | some c =>
                        rw [unblocked_cons_lookup _ p _ c
                          (by rw [Obj.lookup_insert_other m r p _ hpr]; exact hl),
                          unblocked_cons_lookup m p _ c hl]
                    | none =>
                        rw [unblocked_cons_missing _ p _
                          (by rw [Obj.lookup_insert_other m r p _ hpr]; exact hl),
                          unblocked_cons_missing m p _ hl]
          | null => cases ρ' <;> simp [setSegs]
          | bool b => cases ρ' <;> simp [setSegs]
          | num n => cases ρ' <;> simp [setSegs]
          | str t => cases ρ' <;> simp [setSegs]
          | arr l => cases ρ' <;> simp [setSegs]

/-! ### Clearing absent paths: the empty-object skeleton -/

/-- A chain of singleton objects ending in an empty object. -/
def emptyChain : List String → Json
  | [] => .obj []
  | s :: rest => .obj [(s, emptyChain rest)]

/-- Clearing a nonempty path from the empty object builds the chain of
empty intermediate objects. -/
theorem setSegs_empty_none (π : List String) (h : π ≠ []) :
    setSegs (Json.obj []) π none = emptyChain π.dropLast := by
  induction π with
  | nil => exact absurd rfl h
  | cons t rest ih =>
      cases rest with
      | nil => rw [setSegs_single_none]; rfl
      | cons u more =>
          rw [setSegs_cons₂]
          have hy : (Obj.lookup [] t).getD (Json.obj []) = Json.obj [] := rfl
          rw [hy, ih (by simp)]
          rfl

/-- Walking a prefix of the chain resolves to the remaining chain. -/
theorem getSegs_emptyChain (L : List String) (i : Nat) (h : i ≤ L.length) :
    getSegs (emptyChain L) (L.take i) = some (emptyChain (L.drop i)) := by
  induction L generalizing i with
  | nil =>
      have h0 : i = 0 := Nat.le_zero.mp h
      subst h0
      simp [getSegs, emptyChain]
  | cons a L' ih =>
      cases i with
      | zero => simp [getSegs, emptyChain]
      | succ j =>
          rw [List.take_succ_cons, List.drop_succ_cons]
          have hc : emptyChain (a :: L') = Json.obj [(a, emptyChain L')] := rfl
          rw [hc, getSegs_cons_lookup [(a, emptyChain L')] a (L'.take j)
            (emptyChain L') (by simp [Obj.lookup])]
          exact ih j (Nat.le_of_succ_le_succ h)

/-- Claim C10: clearing a keep/noSync path of several segments that is
absent from both the merge result and the target inserts an empty object
for each missing intermediate segment: the merged document contains
empty objects at intermediate keys present in neither source nor
target. -/
theorem c10_clear_absent_path_inserts_empty_objects
    (m dm : List (String × Json)) (p s : String) (rest : List String)
    (hp : parsePath p = s :: rest) (hr : rest ≠ [])
    (hm : Obj.lookup m s = none) (hdm : Obj.lookup dm s = none) :
    mergeResult (Json.obj m) (Json.obj dm) ⟨[p], [], [], []⟩
      = Json.obj (Obj.insert m s (emptyChain rest.dropLast))
    ∧ ∀ i, i ≤ rest.dropLast.length →
        getSegs (mergeResult (Json.obj m) (Json.obj dm) ⟨[p], [], [], []⟩)
          (s :: rest.dropLast.take i)
          = some (emptyChain (rest.dropLast.drop i)) := by
  have hmr : mergeResult (Json.obj m) (Json.obj dm) ⟨[p], [], [], []⟩
      = applyKeepPath (Json.obj dm) (Json.obj m) p := rfl
  have hdget : get_json_path (Json.obj dm) p = none := by
    rw [get_json_path, hp]
    exact getSegs_cons_missing dm s rest hdm
  have hres : applyKeepPath (Json.obj dm) (Json.obj m) p
      = Json.obj (Obj.insert m s (emptyChain rest.dropLast)) := by
    simp only [applyKeepPath, hdget, set_path, hp]
    cases rest with
    | nil => exact absurd rfl hr
    | cons u more =>
        rw [setSegs_cons₂, hm, Option.getD_none,
          setSegs_empty_none (u :: more) (by simp)]
  constructor
  · rw [hmr]; exact hres
  · intro i hi
    rw [hmr, hres,
      getSegs_cons_lookup (Obj.insert m s (emptyChain rest.dropLast)) s
        (rest.dropLast.take i) (emptyChain rest.dropLast)
        (Obj.lookup_insert_self m s _)]
    exact getSegs_emptyChain rest.dropLast i hi

/-- Witness for C10: a keep path `a.b` absent from source and target
leaves `{"x":1,"a":{}}` — an empty object at the fresh key `a`. -/
theorem c10_clear_absent_path_witness :
    mergeResult (Json.obj [("x", Json.num 1)]) (Json.obj [("x", Json.num 2)])
        ⟨["a.b"], [], [], []⟩
      = Json.obj [("x", Json.num 1), ("a", Json.obj [])] :=
  ((c10_clear_absent_path_inserts_empty_objects [("x", Json.num 1)]
      [("x", Json.num 2)] "a.b" "a" ["b"] (by decide) (by decide) (by decide)
      (by decide)).1).trans (by decide)

/-! ### Merge precedence (C1) -/

/-- A keep/noSync step makes the path agree with the target: the
target's value is reproduced when present, the path is cleared when
absent. -/
theorem get_applyKeepPath (dstJson x : Json) (p : String)
    (hub : unblocked x (parsePath p) = true) (hne : parsePath p ≠ [])
    (hwf : Json.wf x = true) :
    get_json_path (applyKeepPath dstJson x p) p = get_json_path dstJson p := by
  cases hd : get_json_path dstJson p with
  | some v =>
      simp only [applyKeepPath, hd]
      simp only [set_path, get_json_path]
      exact getSegs_setSegs_some x (parsePath p) v hub
  | none =>
      simp only [applyKeepPath, hd]
      simp only [set_path, get_json_path]
      exact getSegs_setSegs_none x (parsePath p) hwf hne

/-- Re-applying the source's own value over the source is the
identity. -/
theorem applyOverridePath_self (srcJson : Json) (p : String) :
    applyOverridePath srcJson srcJson p = srcJson := by
  cases hs : get_json_path srcJson p with
  | some v =>
      simp only [applyOverridePath, hs, set_path]
      exact setSegs_self srcJson (parsePath p) v hs
  | none => simp [applyOverridePath, hs]

/-- Claim C1, counterexample: a path listed in both `override_paths` and
`keep_paths` and present in the source yields the *target's* value in
the merge result (the keep pass runs after the override pass), not the
source's value as claimed. -/
theorem c1_counterexample :
    get_json_path (Json.obj [("a", Json.num 1)]) "a" = some (Json.num 1)
    ∧ get_json_path
        (mergeResult (Json.obj [("a", Json.num 1)]) (Json.obj [("a", Json.num 2)])
          ⟨["a"], ["a"], [], []⟩) "a"
      = some (Json.num 2) :=
  ⟨by decide, by decide⟩

/-- Claim C1 (amended): the keep and noSync passes run after the
override pass, so on a shared path the target side prevails: for a
single path `p` (walk unblocked in the source) in override+keep,
override+noSync, keep only, or noSync only, the merge result at `p`
equals the target's value at `p` — reproduced when the target has one,
absent when the target lacks one. -/
theorem c1_precedence_amended (srcJson dstJson : Json) (p : String)
    (hub : unblocked srcJson (parsePath p) = true)
    (hne : parsePath p ≠ [])
    (hwf : Json.wf srcJson = true) :
    get_json_path (mergeResult srcJson dstJson ⟨[p], [p], [], []⟩) p
      = get_json_path dstJson p
    ∧ get_json_path (mergeResult srcJson dstJson ⟨[], [p], [p], []⟩) p
      = get_json_path dstJson p
    ∧ get_json_path (mergeResult srcJson dstJson ⟨[p], [], [], []⟩) p
      = get_json_path dstJson p
    ∧ get_json_path (mergeResult srcJson dstJson ⟨[], [], [p], []⟩) p
      = get_json_path dstJson p := by
  have hcore := get_applyKeepPath dstJson srcJson p hub hne hwf
  have hov := applyOverridePath_self srcJson p
  refine ⟨?_, ?_, ?_, ?_⟩
  · show get_json_path
      (applyKeepPath dstJson (applyOverridePath srcJson srcJson p) p) p = _
    rw [hov]; exact hcore
  · show get_json_path
      (applyKeepPath dstJson (applyOverridePath srcJson srcJson p) p) p = _
    rw [hov]; exact hcore
  · exact hcore
  · exact hcore

/-- Witness for the amended C1. -/
theorem c1_precedence_amended_witness :
    unblocked (Json.obj [("a", Json.num 1)]) (parsePath "a") = true
    ∧ get_json_path
        (mergeResult (Json.obj [("a", Json.num 1)]) (Json.obj [("a", Json.num 2)])
          ⟨["a"], ["a"], [], []⟩) "a"
      = get_json_path (Json.obj [("a", Json.num 2)]) "a" :=
  ⟨by decide,
    (c1_precedence_amended (Json.obj [("a", Json.num 1)])
      (Json.obj [("a", Json.num 2)]) "a" (by decide) (by decide)
      (by decide)).1⟩

/-! ### Array union (C8) -/

/-- The elements `unionArrays` appends: source elements not already
present, first occurrences only, in source order. -/
theorem unionArrays_extra (sa : List Json) : ∀ da : List Json,
    ∃ extra : List Json,
      unionArrays da sa = da ++ extra ∧ extra.Sublist sa ∧ extra.Nodup
      ∧ (∀ z ∈ extra, z ∉ da) ∧ (∀ z ∈ sa, z ∈ da ++ extra) := by
  induction sa with
  | nil =>
      intro da
      exact ⟨[], by simp [unionArrays], List.nil_sublist _, List.nodup_nil,
        by simp, by simp⟩
  | cons it sa' ih =>
      intro da
      have hstep : unionArrays da (it :: sa')
          = unionArrays (if it ∈ da then da else da ++ [it]) sa' := by
        simp [unionArrays, List.foldl_cons]
      by_cases hmem : it ∈ da
      · rcases ih da with ⟨extra, he, hsub, hnd, hnotin, hall⟩
        refine ⟨extra, ?_, hsub.cons it, hnd, hnotin, ?_⟩
        · rw [hstep, if_pos hmem]; exact he
        · intro z hz
          rcases List.mem_cons.mp hz with hz | hz
          · subst hz; exact List.mem_append_left _ hmem
          · exact hall z hz
      · rcases ih (da ++ [it]) with ⟨extra, he, hsub, hnd, hnotin, hall⟩
        refine ⟨it :: extra, ?_, hsub.cons₂ it, ?_, ?_, ?_⟩
        · rw [hstep, if_neg hmem, he, List.append_assoc]
          rfl
        · exact List.nodup_cons.mpr
            ⟨fun hin => hnotin it hin (by simp), hnd⟩
        · intro z hz
          rcases List.mem_cons.mp hz with hz | hz
          · subst hz; exact hmem
          · intro hzda
            exact hnotin z hz (List.mem_append_left _ hzda)
        · intro z hz
          rcases List.mem_cons.mp hz with hz | hz
          · subst hz; simp
          · have hz2 := hall z hz
            simpa [List.append_assoc] using hz2

/-- Claim C8: on a union-strategy array path where the source resolves
to an array, the merged array is the target's elements in their original
order followed by each source element not already present by value
equality, in source order; in particular source `["a","b"]` with target
`["b","c"]` yields `["b","c","a"]`. -/
theorem c8_array_union (srcJson dstJson result : Json) (q : String)
    (da sa : List Json)
    (hs : get_json_path srcJson q = some (Json.arr sa))
    (hd : get_json_path dstJson q = some (Json.arr da))
    (hub : unblocked result (parsePath q) = true) :
    get_json_path (applyArrayPath srcJson dstJson result (q, "union")) q
      = some (Json.arr (unionArrays da sa))
    ∧ (∃ extra : List Json,
        unionArrays da sa = da ++ extra ∧ extra.Sublist sa ∧ extra.Nodup
        ∧ (∀ z ∈ extra, z ∉ da) ∧ (∀ z ∈ sa, z ∈ da ++ extra))
    ∧ unionArrays [Json.str "b", Json.str "c"] [Json.str "a", Json.str "b"]
      = [Json.str "b", Json.str "c", Json.str "a"] := by
  refine ⟨?_, unionArrays_extra sa da, by decide⟩
  have happ : applyArrayPath srcJson dstJson result (q, "union")
      = set_path result q (some (Json.arr (unionArrays da sa))) := by
    simp [applyArrayPath, hs, hd, Json.asArray]
  rw [happ]
  show getSegs
      (setSegs result (parsePath q) (some (Json.arr (unionArrays da sa))))
      (parsePath q) = _
  exact getSegs_setSegs_some result (parsePath q) _ hub

/-- Witness for C8 at the spec's concrete scenario. -/
theorem c8_array_union_witness :
    get_json_path
      (applyArrayPath (Json.obj [("l", Json.arr [Json.str "a", Json.str "b"])])
        (Json.obj [("l", Json.arr [Json.str "b", Json.str "c"])])
        (Json.obj [("l", Json.arr [Json.str "a", Json.str "b"])])
        ("l", "union")) "l"
      = some (Json.arr [Json.str "b", Json.str "c", Json.str "a"]) :=
  ((c8_array_union (Json.obj [("l", Json.arr [Json.str "a", Json.str "b"])])
      (Json.obj [("l", Json.arr [Json.str "b", Json.str "c"])])
      (Json.obj [("l", Json.arr [Json.str "a", Json.str "b"])])
      "l" [Json.str "b", Json.str "c"] [Json.str "a", Json.str "b"]
      (by decide) (by decide) (by decide)).1).trans (by decide)

/-! ### Merge idempotence (C5): an op model of the write steps -/

/-- The write steps of `apply_json_merge` after the override pass: a
keep/noSync step, a union-strategy array step, or a replace-strategy
array step, each at a parsed path. -/
inductive MOp where
  | kp (π : List String)
  | arU (π : List String)
  | arR (π : List String)
deriving DecidableEq, Repr

/-- The path an op writes at. -/
def MOp.segs : MOp → List String
  | .kp π => π
  | .arU π => π
  | .arR π => π

/-- The target-side array a union step starts from. -/
def daOf (T : Json) (π : List String) : List Json :=
  ((getSegs T π).bind Json.asArray).getD []

/-- One write step, reading from the source document and the target
document. -/
def runOp (srcJson T S : Json) : MOp → Json
  | .kp π =>
      match getSegs T π with
      | some v => setSegs S π (some v)
      | none => setSegs S π none
  | .arU π =>
      match getSegs srcJson π with
      | some (.arr sa) =>
          setSegs S π (some (.arr (unionArrays (daOf T π) sa)))
      | _ => S
  | .arR π =>
      match getSegs srcJson π with
      | some v => setSegs S π (some v)
      | none => S

/-- Folding the write steps over a state. -/
def runOps (srcJson T S : Json) (ops : List MOp) : Json :=
  ops.foldl (runOp srcJson T) S

/-- The op list of a merge configuration: keep, then noSync, then the
array strategies. -/
def opsOf (cfg : SyncClientMergeCfg) : List MOp :=
  (cfg.keep_paths ++ cfg.nosync_paths).map (fun p => MOp.kp (parsePath p))
  ++ cfg.array.map (fun e =>
      if e.2 = "union" then MOp.arU (parsePath e.1) else MOp.arR (parsePath e.1))

theorem overrideFold_self (srcJson : Json) (l : List String) :
    l.foldl (applyOverridePath srcJson) srcJson = srcJson := by
  induction l with
  | nil => rfl
  | cons p l' ih => rw [List.foldl_cons, applyOverridePath_self]; exact ih

theorem applyKeepPath_eq_runOp (srcJson dstJson S : Json) (p : String) :
    applyKeepPath dstJson S p = runOp srcJson dstJson S (MOp.kp (parsePath p)) := by
  cases hd : getSegs dstJson (parsePath p) with
  | some v => simp only [applyKeepPath, runOp, get_json_path, set_path, hd]
  | none => simp only [applyKeepPath, runOp, get_json_path, set_path, hd]

theorem applyArrayPath_eq_runOp (srcJson dstJson S : Json) (e : String × String) :
    applyArrayPath srcJson dstJson S e
      = runOp srcJson dstJson S
          (if e.2 = "union" then MOp.arU (parsePath e.1)
            else MOp.arR (parsePath e.1)) := by
  by_cases h : e.2 = "union"
  · rw [if_pos h]
    cases hs : getSegs srcJson (parsePath e.1) with
    | none =>
        simp only [applyArrayPath, runOp, get_json_path, set_path, daOf, hs, h,
          if_true]
    | some v =>
        cases v <;>
          simp only [applyArrayPath, runOp, get_json_path, set_path, daOf, hs, h,
            if_true]
  · rw [if_neg h]
    cases hs : getSegs srcJson (parsePath e.1) with
    | none =>
        simp only [applyArrayPath, runOp, get_json_path, set_path, hs, h,
          if_false]
    | some v =>
        simp only [applyArrayPath, runOp, get_json_path, set_path, hs, h,
          if_false]

theorem keepFold_eq (srcJson dstJson : Json) (l : List String) :
    ∀ S : Json, l.foldl (applyKeepPath dstJson) S
      = runOps srcJson dstJson S (l.map (fun p => MOp.kp (parsePath p))) := by
  induction l with
  | nil => intro S; rfl
  | cons p l' ih =>
      intro S
      simp only [List.map_cons, List.foldl_cons, runOps]
      rw [applyKeepPath_eq_runOp srcJson dstJson S p]
      exact ih (runOp srcJson dstJson S (MOp.kp (parsePath p)))

theorem arrayFold_eq (srcJson dstJson : Json) (l : List (String × String)) :
    ∀ S : Json, l.foldl (applyArrayPath srcJson dstJson) S
      = runOps srcJson dstJson S
          (l.map (fun e => if e.2 = "union" then MOp.arU (parsePath e.1)
            else MOp.arR (parsePath e.1))) := by
  induction l with
  | nil => intro S; rfl
  | cons e l' ih =>
      intro S
      simp only [List.map_cons, List.foldl_cons, runOps]
      rw [applyArrayPath_eq_runOp srcJson dstJson S e]
      exact ih _

theorem runOps_append (srcJson dstJson S : Json) (l₁ l₂ : List MOp) :
    runOps srcJson dstJson S (l₁ ++ l₂)
      = runOps srcJson dstJson (runOps srcJson dstJson S l₁) l₂ := by
  simp [runOps, List.foldl_append]

/-- `apply_json_merge`'s pure assembly is the op fold: the override pass
re-writes the source's own values onto a clone of the source and is the
identity. -/
theorem mergeResult_eq_runOps (srcJson dstJson : Json)
    (cfg : SyncClientMergeCfg) :
    mergeResult srcJson dstJson cfg
      = runOps srcJson dstJson srcJson (opsOf cfg) := by
  show cfg.array.foldl (applyArrayPath srcJson dstJson)
      (cfg.nosync_paths.foldl (applyKeepPath dstJson)
        (cfg.keep_paths.foldl (applyKeepPath dstJson)
          (cfg.override_paths.foldl (applyOverridePath srcJson) srcJson))) = _
  rw [overrideFold_self, keepFold_eq srcJson dstJson cfg.keep_paths,
    keepFold_eq srcJson dstJson cfg.nosync_paths,
    arrayFold_eq srcJson dstJson cfg.array, opsOf, List.map_append,
    runOps_append, runOps_append]

theorem segPrefixB_self (π : List String) : segPrefixB π π = true := by
  induction π with
  | nil => rfl
  | cons s rest ih => simp [segPrefixB, ih]

/-- A union with a source whose elements are all present is the
identity. -/
theorem unionArrays_absorb (l sa : List Json) (h : ∀ z ∈ sa, z ∈ l) :
    unionArrays l sa = l := by
  induction sa with
  | nil => rfl
  | cons it sa' ih =>
      have hstep : unionArrays l (it :: sa')
          = unionArrays (if it ∈ l then l else l ++ [it]) sa' := by
        simp [unionArrays, List.foldl_cons]
      rw [hstep, if_pos (h it (by simp))]
      exact ih (fun z hz => h z (by simp [hz]))

theorem mem_unionArrays_of_mem_right (da sa : List Json) (z : Json)
    (hz : z ∈ sa) : z ∈ unionArrays da sa := by
  rcases unionArrays_extra sa da with ⟨extra, he, _, _, _, hall⟩
  rw [he]
  exact hall z hz

theorem wf_daOf (T : Json) (π : List String) (hT : Json.wf T = true) :
    ∀ z ∈ daOf T π, Json.wf z = true := by
  intro z hz
  rw [daOf] at hz
  cases ht : getSegs T π with
  | none => rw [ht] at hz; exact absurd hz (by simp)
  | some u =>
      rw [ht] at hz
      have hu : Json.wf u = true := wf_getSegs T π u hT ht
      cases u with
      | arr l =>
          simp only [Option.bind_some, Json.asArray, Option.getD_some] at hz
          exact (wf_arr_iff l).mp hu z hz
      | null => exact absurd hz (by simp [Json.asArray])
      | bool b => exact absurd hz (by simp [Json.asArray])
      | num n => exact absurd hz (by simp [Json.asArray])
      | str t => exact absurd hz (by simp [Json.asArray])
      | obj m => exact absurd hz (by simp [Json.asArray])

theorem wf_unionArrays (da sa : List Json)
    (hda : ∀ z ∈ da, Json.wf z = true) (hsa : ∀ z ∈ sa, Json.wf z = true) :
    ∀ z ∈ unionArrays da sa, Json.wf z = true := by
  rcases unionArrays_extra sa da with ⟨extra, he, hsub, _, _, _⟩
  rw [he]
  intro z hz
  rcases List.mem_append.mp hz with hz | hz
  · exact hda z hz
  · exact hsa z (hsub.subset hz)

/-- Every op either leaves the state alone or performs one `setSegs`
write at its own path, with a well-formed written value. -/
theorem runOp_cases (srcJson T S : Json) (o : MOp)
    (hT : Json.wf T = true) (hsrc : Json.wf srcJson = true) :
    runOp srcJson T S o = S
    ∨ ∃ v : Option Json, runOp srcJson T S o = setSegs S (MOp.segs o) v
        ∧ ∀ w, v = some w → Json.wf w = true := by
  cases o with
  | kp π =>
      cases ht : getSegs T π with
      | some v =>
          refine Or.inr ⟨some v, by simp only [runOp, ht, MOp.segs], ?_⟩
          intro w hw
          cases hw
          exact wf_getSegs T π v hT ht
      | none =>
          exact Or.inr ⟨none, by simp only [runOp, ht, MOp.segs], nofun⟩
  | arU π =>
      cases hs : getSegs srcJson π with
      | none => exact Or.inl (by simp only [runOp, hs])
      | some v =>
          cases v with
          | arr sa =>
              refine Or.inr ⟨some (.arr (unionArrays (daOf T π) sa)),
                by simp only [runOp, hs, MOp.segs], ?_⟩
              intro w hw
              cases hw
              rw [wf_arr_iff]
              exact wf_unionArrays (daOf T π) sa (wf_daOf T π hT)
                (fun z hz => (wf_arr_iff sa).mp (wf_getSegs srcJson π _ hsrc hs) z hz)
          | null => exact Or.inl (by simp only [runOp, hs])
          | bool b => exact Or.inl (by simp only [runOp, hs])
          | num n => exact Or.inl (by simp only [runOp, hs])
          | str t => exact Or.inl (by simp only [runOp, hs])
          | obj m => exact Or.inl (by simp only [runOp, hs])
  | arR π =>
      cases hs : getSegs srcJson π with
      | some v =>
          refine Or.inr ⟨some v, by simp only [runOp, hs, MOp.segs], ?_⟩
          intro w hw
          cases hw
          exact wf_getSegs srcJson π v hsrc hs
      | none => exact Or.inl (by simp only [runOp, hs])

theorem wf_runOp (srcJson T S : Json) (o : MOp)
    (hS : Json.wf S = true) (hT : Json.wf T = true)
    (hsrc : Json.wf srcJson = true) :
    Json.wf (runOp srcJson T S o) = true := by
  rcases runOp_cases srcJson T S o hT hsrc with h | ⟨v, he, hv⟩
  · rw [h]; exact hS
  · rw [he]; exact wf_setSegs S (MOp.segs o) v hS hv

theorem wf_runOps (srcJson T : Json) (ops : List MOp)
    (hT : Json.wf T = true) (hsrc : Json.wf srcJson = true) :
    ∀ S : Json, Json.wf S = true → Json.wf (runOps srcJson T S ops) = true := by
  induction ops with
  | nil => intro S hS; exact hS
  | cons o rest ih =>
      intro S hS
      exact ih _ (wf_runOp srcJson T S o hS hT hsrc)

/-- An op whose path equals or is incomparable with `π` does not change
whether `π` is blocked. -/
theorem unblocked_runOp_compat (srcJson T S : Json) (o : MOp)
    (π : List String) (hS : Json.wf S = true) (hT : Json.wf T = true)
    (hsrc : Json.wf srcJson = true)
    (hc : MOp.segs o = π
      ∨ (segPrefixB (MOp.segs o) π = false ∧ segPrefixB π (MOp.segs o) = false)) :
    unblocked (runOp srcJson T S o) π = unblocked S π := by
  rcases runOp_cases srcJson T S o hT hsrc with h | ⟨v, he, _⟩
  · rw [h]
  · rw [he]
    rcases hc with hc | ⟨h1, h2⟩
    · rw [hc]; exact unblocked_setSegs_same S π v
    · exact unblocked_setSegs_incomp S (MOp.segs o) π v hS h1 h2

/-- An op at an incomparable path does not change the value at `π`. -/
theorem getSegs_runOp_incomp (srcJson T S : Json) (o : MOp)
    (π : List String) (hS : Json.wf S = true) (hT : Json.wf T = true)
    (hsrc : Json.wf srcJson = true)
    (h1 : segPrefixB (MOp.segs o) π = false)
    (h2 : segPrefixB π (MOp.segs o) = false) :
    getSegs (runOp srcJson T S o) π = getSegs S π := by
  rcases runOp_cases srcJson T S o hT hsrc with h | ⟨v, he, _⟩
  · rw [h]
  · rw [he]
    exact getSegs_setSegs_incomp S (MOp.segs o) π v hS h1 h2

/-- A keep/noSync step settles its own path to the target's value when
the walk is open, and to nothing when it is blocked. -/
theorem runOp_kp_establishes (srcJson T S : Json) (π : List String)
    (hS : Json.wf S = true) (hπ : π ≠ []) :
    getSegs (runOp srcJson T S (.kp π)) π
      = cond (unblocked S π) (getSegs T π) none := by
  cases hub : unblocked S π with
  | true =>
      cases ht : getSegs T π with
      | some v =>
          simp only [runOp, ht, cond_true]
          rw [getSegs_setSegs_some S π v hub]
      | none =>
          simp only [runOp, ht, cond_true]
          exact getSegs_setSegs_none S π hS hπ
  | false =>
      cases ht : getSegs T π with
      | some v =>
          simp only [runOp, ht, cond_false]
          rw [setSegs_of_blocked S π (some v) hub]
          exact getSegs_of_blocked S π hub
      | none =>
          simp only [runOp, ht, cond_false]
          rw [setSegs_of_blocked S π none hub]
          exact getSegs_of_blocked S π hub

/-- An active union step settles its own path to the union array when
the walk is open, and to nothing when it is blocked. -/
theorem runOp_arU_establishes (srcJson T S : Json) (π : List String)
    (sa : List Json) (hs : getSegs srcJson π = some (Json.arr sa)) :
    getSegs (runOp srcJson T S (.arU π)) π
      = cond (unblocked S π)
          (some (Json.arr (unionArrays (daOf T π) sa))) none := by
  cases hub : unblocked S π with
  | true =>
      simp only [runOp, hs, cond_true]
      exact getSegs_setSegs_some S π _ hub
  | false =>
      simp only [runOp, hs, cond_false]
      rw [setSegs_of_blocked S π _ hub]
      exact getSegs_of_blocked S π hub

/-- Incomparable paths: neither is a prefix of the other. -/
def segIncomp (a b : List String) : Prop :=
  segPrefixB a b = false ∧ segPrefixB b a = false

instance (a b : List String) : Decidable (segIncomp a b) :=
  inferInstanceAs (Decidable (segPrefixB a b = false ∧ segPrefixB b a = false))

/-- The value the target document determines at an op's own path in the
final merge result. -/
def fvFact (srcJson T R : Json) : MOp → Prop
  | .kp π => getSegs R π = cond (unblocked srcJson π) (getSegs T π) none
  | .arU π => ∀ sa, getSegs srcJson π = some (Json.arr sa) →
      getSegs R π
        = cond (unblocked srcJson π)
            (some (Json.arr (unionArrays (daOf T π) sa))) none
  | .arR _ => True

/-- Once a keep path is settled (or a keep step for it is still ahead),
running ops that repeat the keep or write at incomparable paths leaves
the target-determined value at it. -/
theorem fv_kp (srcJson T : Json) (π : List String)
    (hsrc : Json.wf srcJson = true) (hT : Json.wf T = true) (hπ : π ≠ []) :
    ∀ ops : List MOp, ∀ S : Json, Json.wf S = true →
      unblocked S π = unblocked srcJson π →
      (∀ o ∈ ops, o = MOp.kp π ∨ segIncomp (MOp.segs o) π) →
      (MOp.kp π ∈ ops
        ∨ getSegs S π = cond (unblocked srcJson π) (getSegs T π) none) →
      getSegs (runOps srcJson T S ops) π
        = cond (unblocked srcJson π) (getSegs T π) none := by
  intro ops
  induction ops with
  | nil =>
      intro S _ _ _ hmem
      rcases hmem with hmem | hmem
      · exact absurd hmem (List.not_mem_nil _)
      · exact hmem
  | cons o rest ih =>
      intro S hS hb hops hmem
      have hS' : Json.wf (runOp srcJson T S o) = true :=
        wf_runOp srcJson T S o hS hT hsrc
      rcases hops o (List.mem_cons_self o rest) with ho | hinc
      · subst ho
        have hb' : unblocked (runOp srcJson T S (MOp.kp π)) π
            = unblocked srcJson π := by
          rw [unblocked_runOp_compat srcJson T S (MOp.kp π) π hS hT hsrc
            (Or.inl rfl), hb]
        have hval' : getSegs (runOp srcJson T S (MOp.kp π)) π
            = cond (unblocked srcJson π) (getSegs T π) none := by
          rw [runOp_kp_establishes srcJson T S π hS hπ, hb]
        exact ih (runOp srcJson T S (MOp.kp π)) hS' hb'
          (fun o' ho' => hops o' (List.mem_cons_of_mem _ ho'))
          (Or.inr hval')
      · have hb' : unblocked (runOp srcJson T S o) π = unblocked srcJson π := by
          rw [unblocked_runOp_compat srcJson T S o π hS hT hsrc
            (Or.inr hinc), hb]
        have hmem' : MOp.kp π ∈ rest
            ∨ getSegs (runOp srcJson T S o) π
                = cond (unblocked srcJson π) (getSegs T π) none := by
          rcases hmem with hmem | hmem
          · rcases List.mem_cons.mp hmem with hmem | hmem
            · exfalso
              rw [← hmem] at hinc
              have hpp := hinc.1
              simp only [MOp.segs] at hpp
              rw [segPrefixB_self] at hpp
              exact absurd hpp (by simp)
            · exact Or.inl hmem
          · exact Or.inr (by
              rw [getSegs_runOp_incomp srcJson T S o π hS hT hsrc hinc.1 hinc.2]
              exact hmem)
        exact ih (runOp srcJson T S o) hS' hb'
          (fun o' ho' => hops o' (List.mem_cons_of_mem _ ho')) hmem'

/-- The union analogue of the previous lemma for an active union path. -/
theorem fv_arU (srcJson T : Json) (π : List String) (sa : List Json)
    (hsrc : Json.wf srcJson = true) (hT : Json.wf T = true)
    (hs : getSegs srcJson π = some (Json.arr sa)) :
    ∀ ops : List MOp, ∀ S : Json, Json.wf S = true →
      unblocked S π = unblocked srcJson π →
      (∀ o ∈ ops, o = MOp.arU π ∨ segIncomp (MOp.segs o) π) →
      (MOp.arU π ∈ ops
        ∨ getSegs S π = cond (unblocked srcJson π)
            (some (Json.arr (unionArrays (daOf T π) sa))) none) →
      getSegs (runOps srcJson T S ops) π
        = cond (unblocked srcJson π)
            (some (Json.arr (unionArrays (daOf T π) sa))) none := by
  intro ops
  induction ops with
  | nil =>
      intro S _ _ _ hmem
      rcases hmem with hmem | hmem
      · exact absurd hmem (List.not_mem_nil _)
      · exact hmem
  | cons o rest ih =>
      intro S hS hb hops hmem
      have hS' : Json.wf (runOp srcJson T S o) = true :=
        wf_runOp srcJson T S o hS hT hsrc
      rcases hops o (List.mem_cons_self o rest) with ho | hinc
      · subst ho
        have hb' : unblocked (runOp srcJson T S (MOp.arU π)) π
            = unblocked srcJson π := by
          rw [unblocked_runOp_compat srcJson T S (MOp.arU π) π hS hT hsrc
            (Or.inl rfl), hb]
        have hval' : getSegs (runOp srcJson T S (MOp.arU π)) π
            = cond (unblocked srcJson π)
                (some (Json.arr (unionArrays (daOf T π) sa))) none := by
          rw [runOp_arU_establishes srcJson T S π sa hs, hb]
        exact ih (runOp srcJson T S (MOp.arU π)) hS' hb'
          (fun o' ho' => hops o' (List.mem_cons_of_mem _ ho'))
          (Or.inr hval')
      · have hb' : unblocked (runOp srcJson T S o) π = unblocked srcJson π := by
          rw [unblocked_runOp_compat srcJson T S o π hS hT hsrc
            (Or.inr hinc), hb]
        have hmem' : MOp.arU π ∈ rest
            ∨ getSegs (runOp srcJson T S o) π
                = cond (unblocked srcJson π)
                    (some (Json.arr (unionArrays (daOf T π) sa))) none := by
          rcases hmem with hmem | hmem
          · rcases List.mem_cons.mp hmem with hmem | hmem
            · exfalso
              rw [← hmem] at hinc
              have hpp := hinc.1
              simp only [MOp.segs] at hpp
              rw [segPrefixB_self] at hpp
              exact absurd hpp (by simp)
            · exact Or.inl hmem
          · exact Or.inr (by
              rw [getSegs_runOp_incomp srcJson T S o π hS hT hsrc hinc.1 hinc.2]
              exact hmem)
        exact ih (runOp srcJson T S o) hS' hb'
          (fun o' ho' => hops o' (List.mem_cons_of_mem _ ho')) hmem'

/-- Replaying one op against the final result instead of the original
target produces the same step. -/
theorem runOp_replay (srcJson T R S : Json) (o : MOp)
    (hblk : unblocked S (MOp.segs o) = unblocked srcJson (MOp.segs o))
    (hfv : fvFact srcJson T R o) :
    runOp srcJson R S o = runOp srcJson T S o := by
  cases o with
  | kp π =>
      simp only [MOp.segs] at hblk
      simp only [fvFact] at hfv
      cases hb : unblocked srcJson π with
      | true =>
          rw [hb, cond_true] at hfv
          simp only [runOp, hfv]
      | false =>
          rw [hb, cond_false] at hfv
          have hSb : unblocked S π = false := by rw [hblk, hb]
          cases ht : getSegs T π with
          | some v =>
              simp only [runOp, hfv, ht]
              rw [setSegs_of_blocked S π none hSb,
                setSegs_of_blocked S π (some v) hSb]
          | none => simp only [runOp, hfv, ht]
  | arU π =>
      simp only [MOp.segs] at hblk
      simp only [fvFact] at hfv
      cases hs : getSegs srcJson π with
      | none => simp only [runOp, hs]
      | some v =>
          cases v with
          | arr sa =>
              have hval := hfv sa hs
              cases hb : unblocked srcJson π with
              | true =>
                  rw [hb, cond_true] at hval
                  have hda : daOf R π = unionArrays (daOf T π) sa := by
                    rw [daOf, hval]
                    simp [Json.asArray]
                  simp only [runOp, hs, hda,
                    unionArrays_absorb (unionArrays (daOf T π) sa) sa
                      (fun z hz => mem_unionArrays_of_mem_right (daOf T π) sa z hz)]
              | false =>
                  have hSb : unblocked S π = false := by rw [hblk, hb]
                  simp only [runOp, hs]
                  rw [setSegs_of_blocked S π _ hSb, setSegs_of_blocked S π _ hSb]
          | null => simp only [runOp, hs]
          | bool b => simp only [runOp, hs]
          | num n => simp only [runOp, hs]
          | str t => simp only [runOp, hs]
          | obj m => simp only [runOp, hs]
  | arR π => rfl

/-- Replaying the whole op list against the final result produces the
same trajectory, for pairwise identical-or-incomparable op paths. -/
theorem runOps_replay (srcJson T R : Json)
    (hsrc : Json.wf srcJson = true) (hT : Json.wf T = true) :
    ∀ ops : List MOp, ∀ S : Json, Json.wf S = true →
      (∀ o ∈ ops, unblocked S (MOp.segs o) = unblocked srcJson (MOp.segs o)) →
      (∀ o ∈ ops, fvFact srcJson T R o) →
      (∀ o ∈ ops, ∀ o' ∈ ops,
        MOp.segs o = MOp.segs o' ∨ segIncomp (MOp.segs o) (MOp.segs o')) →
      runOps srcJson R S ops = runOps srcJson T S ops := by
  intro ops
  induction ops with
  | nil => intro S _ _ _ _; rfl
  | cons o rest ih =>
      intro S hS hblk hfv hpair
      have hstep : runOp srcJson R S o = runOp srcJson T S o :=
        runOp_replay srcJson T R S o (hblk o (List.mem_cons_self o rest))
          (hfv o (List.mem_cons_self o rest))
      have hS' : Json.wf (runOp srcJson T S o) = true :=
        wf_runOp srcJson T S o hS hT hsrc
      have hblk' : ∀ o' ∈ rest,
          unblocked (runOp srcJson T S o) (MOp.segs o')
            = unblocked srcJson (MOp.segs o') := by
        intro o' ho'
        have hrel := hpair o (List.mem_cons_self o rest) o'
          (List.mem_cons_of_mem _ ho')
        rw [unblocked_runOp_compat srcJson T S o (MOp.segs o') hS hT hsrc hrel]
        exact hblk o' (List.mem_cons_of_mem _ ho')
      show runOps srcJson R (runOp srcJson R S o) rest = _
      rw [hstep]
      exact ih (runOp srcJson T S o) hS' hblk'
        (fun o' ho' => hfv o' (List.mem_cons_of_mem _ ho'))
        (fun o' ho' o'' ho'' => hpair o' (List.mem_cons_of_mem _ ho')
          o'' (List.mem_cons_of_mem _ ho''))

/-- The final merge result carries the target-determined value at every
op's path, for pairwise identical-or-incomparable nonempty op paths. -/
theorem fvFacts_hold (srcJson T : Json) (ops : List MOp)
    (hsrc : Json.wf srcJson = true) (hT : Json.wf T = true)
    (hπ : ∀ o ∈ ops, MOp.segs o ≠ [])
    (hstruct : ∀ o ∈ ops, ∀ o' ∈ ops,
      o' = o ∨ segIncomp (MOp.segs o') (MOp.segs o)) :
    ∀ o ∈ ops, fvFact srcJson T (runOps srcJson T srcJson ops) o := by
  intro o ho
  cases o with
  | kp π =>
      simp only [fvFact]
      exact fv_kp srcJson T π hsrc hT (by simpa [MOp.segs] using hπ _ ho) ops
        srcJson hsrc rfl
        (fun o' ho' => by
          rcases hstruct (MOp.kp π) ho o' ho' with h | h
          · exact Or.inl h
          · exact Or.inr h)
        (Or.inl ho)
  | arU π =>
      simp only [fvFact]
      intro sa hs
      exact fv_arU srcJson T π sa hsrc hT hs ops srcJson hsrc rfl
        (fun o' ho' => by
          rcases hstruct (MOp.arU π) ho o' ho' with h | h
          · exact Or.inl h
          · exact Or.inr h)
        (Or.inl ho)
  | arR π => simp only [fvFact]

/-- Core idempotence: `mergeResult` run again with the first result as
the target reproduces the first result, when the configured parsed
paths are pairwise identical-or-incomparable and nonempty and both
documents are well-formed. -/
theorem mergeResult_idem (srcJson dstJson : Json) (cfg : SyncClientMergeCfg)
    (hsrc : Json.wf srcJson = true) (hdst : Json.wf dstJson = true)
    (hπ : ∀ o ∈ opsOf cfg, MOp.segs o ≠ [])
    (hstruct : ∀ o ∈ opsOf cfg, ∀ o' ∈ opsOf cfg,
      o' = o ∨ segIncomp (MOp.segs o') (MOp.segs o)) :
    mergeResult srcJson (mergeResult srcJson dstJson cfg) cfg
      = mergeResult srcJson dstJson cfg := by
  rw [mergeResult_eq_runOps srcJson dstJson cfg,
    mergeResult_eq_runOps srcJson
      (runOps srcJson dstJson srcJson (opsOf cfg)) cfg]
  exact runOps_replay srcJson dstJson
    (runOps srcJson dstJson srcJson (opsOf cfg)) hsrc hdst (opsOf cfg)
    srcJson hsrc (fun o _ => rfl)
    (fvFacts_hold srcJson dstJson (opsOf cfg) hsrc hdst hπ hstruct)
    (fun o ho o' ho' => by
      rcases hstruct o ho o' ho' with h | h
      · exact Or.inl (by rw [h])
      · exact Or.inr ⟨h.2, h.1⟩)

/-- The target document a run parses from the current target text. -/
def dstJsonOf (parse : String → Option Json) (dstStr : Option String) : Json :=
  match dstStr with
  | some s => (parse s).getD Json.null
  | none => Json.null

theorem mergeRun_fst (serialize : Json → String) (fp : String → String)
    (parse : String → Option Json) (srcJson : Json) (dstStr : Option String)
    (cfg : SyncClientMergeCfg) :
    (mergeRun serialize fp parse srcJson dstStr cfg).1
      = serialize (mergeResult srcJson (dstJsonOf parse dstStr) cfg) := by
  simp only [mergeRun]
  split <;> rfl

theorem mergeRun_snd_eq_false (serialize : Json → String) (fp : String → String)
    (parse : String → Option Json) (srcJson : Json) (dstStr : Option String)
    (cfg : SyncClientMergeCfg)
    (h : some (fp (serialize (mergeResult srcJson (dstJsonOf parse dstStr) cfg)))
      = dstStr.map fp) :
    (mergeRun serialize fp parse srcJson dstStr cfg).2 = false := by
  show (if some (fp (serialize (mergeResult srcJson (dstJsonOf parse dstStr) cfg)))
        = Option.map fp dstStr then
      (serialize (mergeResult srcJson (dstJsonOf parse dstStr) cfg), false)
    else
      (serialize (mergeResult srcJson (dstJsonOf parse dstStr) cfg), true)).2
    = false
  rw [if_pos h]

/-- Claim C5: running the structural merge a second time, with the
target replaced by the first run's output text and the source and
configuration unchanged, yields wouldWrite=false — the second serialized
result equals the first output, so their fingerprints agree. Hypotheses:
both documents well-formed, the configured parsed paths pairwise
identical or incomparable and nonempty, and the external
serializer/parser round-trips the first result. -/
theorem c5_merge_idempotent (serialize : Json → String) (fp : String → String)
    (parse : String → Option Json) (srcJson : Json) (dstStr : Option String)
    (cfg : SyncClientMergeCfg)
    (hsrc : Json.wf srcJson = true)
    (hdst : Json.wf (dstJsonOf parse dstStr) = true)
    (hπ : ∀ o ∈ opsOf cfg, MOp.segs o ≠ [])
    (hstruct : ∀ o ∈ opsOf cfg, ∀ o' ∈ opsOf cfg,
      o' = o ∨ segIncomp (MOp.segs o') (MOp.segs o))
    (hrt : parse ((mergeRun serialize fp parse srcJson dstStr cfg).1)
      = some (mergeResult srcJson (dstJsonOf parse dstStr) cfg)) :
    (mergeRun serialize fp parse srcJson
        (some ((mergeRun serialize fp parse srcJson dstStr cfg).1)) cfg).2
      = false
    ∧ (mergeRun serialize fp parse srcJson
        (some ((mergeRun serialize fp parse srcJson dstStr cfg).1)) cfg).1
      = (mergeRun serialize fp parse srcJson dstStr cfg).1 := by
  have hout := mergeRun_fst serialize fp parse srcJson dstStr cfg
  have hdj2 : dstJsonOf parse
      (some ((mergeRun serialize fp parse srcJson dstStr cfg).1))
      = mergeResult srcJson (dstJsonOf parse dstStr) cfg := by
    simp only [dstJsonOf, hrt, Option.getD_some]
  constructor
  · apply mergeRun_snd_eq_false
    rw [hdj2,
      mergeResult_idem srcJson (dstJsonOf parse dstStr) cfg hsrc hdst hπ hstruct,
      hout]
    rfl
  · rw [mergeRun_fst serialize fp parse srcJson
      (some ((mergeRun serialize fp parse srcJson dstStr cfg).1)) cfg, hdj2,
      mergeResult_idem srcJson (dstJsonOf parse dstStr) cfg hsrc hdst hπ hstruct,
      hout]

/-- Witness for C5 with a constant serializer, identity fingerprint and
a matching parser. -/
theorem c5_merge_idempotent_witness :
    (mergeRun (fun _ => "s") (fun s => s)
        (fun s => if s = "s" then some (Json.obj [("a", Json.num 1)]) else none)
        (Json.obj [("a", Json.num 1)])
        (some ((mergeRun (fun _ => "s") (fun s => s)
          (fun s => if s = "s" then some (Json.obj [("a", Json.num 1)]) else none)
          (Json.obj [("a", Json.num 1)]) none ⟨["k"], [], [], []⟩).1))
        ⟨["k"], [], [], []⟩).2 = false :=
  (c5_merge_idempotent (fun _ => "s") (fun s => s)
    (fun s => if s = "s" then some (Json.obj [("a", Json.num 1)]) else none)
    (Json.obj [("a", Json.num 1)]) none ⟨["k"], [], [], []⟩
    (by decide) (by decide) (by decide) (by decide) (by decide)).1

/-! ### Batch error handling (C9) -/

/-- `FormatResult` without the file name (format.rs): change flag,
preview and captured original. -/
structure FormatRes where
  changed : Bool
  preview : Option String
  original : Option String
deriving DecidableEq, Repr

/-- The per-file body of `lint_rule` (lint.rs): an unreadable or
unparseable file contributes no issues and no file count; otherwise the
policy checks run (modelled as a parameter, `checks.rs` is absent from
the sources) and the order lint compares against `lintOrderExpected`.
Issues are modelled by their messages. -/
def lintFile (runChecks : Json → List String)
    (ord : Option (List (List String))) (parse : String → Option Json)
    (readRes : Option String) : List String × Nat :=
  match readRes with
  | Option.none => ([], 0)
  | some data =>
      match parse data with
      | Option.none => ([], 0)
      | some json =>
          let found := runChecks json
          let ordIssues :=
            match ord, json with
            | some top, Json.obj obj =>
                if lintOrderIssue obj top then ["order"] else []
            | _, _ => []
          (found ++ ordIssues, 1)

/-- Per-rule lint over the files of a batch. -/
def lintBatch (runChecks : Json → List String)
    (ord : Option (List (List String))) (parse : String → Option Json)
    (files : List (Option String)) : List (List String × Nat) :=
  files.map (lintFile runChecks ord parse)

/-- The per-file body of `run_format` (format.rs lines 88–136):
unreadable or unparseable files return `changed=false` with no preview
and no original; otherwise the normalizer runs and, on change, the
serialized text (line-break passes included, both modelled by the
`applyLb` parameter together with the external pretty-printer). -/
def formatFile (ordF : Option (List (List String) × List (String × List String)))
    (parse : String → Option Json) (serialize : Json → String)
    (applyLb : String → String) (write captureOld : Bool)
    (readRes : Option String) : FormatRes :=
  match readRes with
  | Option.none => ⟨false, Option.none, Option.none⟩
  | some data =>
      match parse data with
      | Option.none => ⟨false, Option.none, Option.none⟩
      | some json =>
          match ordF with
          | some (top, sub) =>
              let r := apply_order_from json top sub
              if r.2 then
                let s := applyLb (serialize r.1)
                if write then
                  ⟨true, Option.none, if captureOld then some data else Option.none⟩
                else
                  ⟨true, some s, if captureOld then some data else Option.none⟩
              else ⟨false, Option.none, if captureOld then some data else Option.none⟩
          | Option.none =>
              ⟨false, Option.none, if captureOld then some data else Option.none⟩

/-- Per-rule format over the files of a batch. -/
def formatBatch (ordF : Option (List (List String) × List (String × List String)))
    (parse : String → Option Json) (serialize : Json → String)
    (applyLb : String → String) (write captureOld : Bool)
    (files : List (Option String)) : List FormatRes :=
  files.map (formatFile ordF parse serialize applyLb write captureOld)

/-- Claim C9: a document whose text cannot be read or parsed yields zero
lint issues and zero file count, and a `changed=false` format result
with no preview and no original; the other documents of the batch are
mapped exactly as they would be without it. -/
theorem c9_skip_malformed (runChecks : Json → List String)
    (ordL : Option (List (List String)))
    (ordF : Option (List (List String) × List (String × List String)))
    (parse : String → Option Json) (serialize : Json → String)
    (applyLb : String → String) (write captureOld : Bool)
    (r : Option String)
    (hbad : r = Option.none
      ∨ ∃ data, r = some data ∧ parse data = Option.none) :
    lintFile runChecks ordL parse r = ([], 0)
    ∧ formatFile ordF parse serialize applyLb write captureOld r
        = ⟨false, Option.none, Option.none⟩
    ∧ (∀ pre post : List (Option String),
        lintBatch runChecks ordL parse (pre ++ r :: post)
          = lintBatch runChecks ordL parse pre
            ++ ([], 0) :: lintBatch runChecks ordL parse post)
    ∧ (∀ pre post : List (Option String),
        formatBatch ordF parse serialize applyLb write captureOld (pre ++ r :: post)
          = formatBatch ordF parse serialize applyLb write captureOld pre
            ++ ⟨false, Option.none, Option.none⟩
              :: formatBatch ordF parse serialize applyLb write captureOld post) := by
  have hlint : lintFile runChecks ordL parse r = ([], 0) := by
    rcases hbad with hbad | ⟨data, hr, hp⟩
    · rw [hbad]; rfl
    · rw [hr]
      simp only [lintFile, hp]
  have hfmt : formatFile ordF parse serialize applyLb write captureOld r
      = ⟨false, Option.none, Option.none⟩ := by
    rcases hbad with hbad | ⟨data, hr, hp⟩
    · rw [hbad]; rfl
    · rw [hr]
      simp only [formatFile, hp]
  refine ⟨hlint, hfmt, ?_, ?_⟩
  · intro pre post
    simp only [lintBatch, List.map_append, List.map_cons, hlint]
  · intro pre post
    simp only [formatBatch, List.map_append, List.map_cons, hfmt]

/-- Witness for C9 with an always-failing parser. -/
theorem c9_skip_malformed_witness :
    lintFile (fun _ => ["check-issue"]) (some [["name"]])
        (fun _ => Option.none) (some "not json") = ([], 0)
    ∧ formatFile (some ([["name"]], [])) (fun _ => Option.none)
        (fun _ => "") (fun s => s) false false (some "not json")
        = ⟨false, Option.none, Option.none⟩ :=
  ⟨(c9_skip_malformed (fun _ => ["check-issue"]) (some [["name"]])
      (some ([["name"]], [])) (fun _ => Option.none) (fun _ => "")
      (fun s => s) false false (some "not json")
      (Or.inr ⟨"not json", rfl, rfl⟩)).1,
    (c9_skip_malformed (fun _ => ["check-issue"]) (some [["name"]])
      (some ([["name"]], [])) (fun _ => Option.none) (fun _ => "")
      (fun s => s) false false (some "not json")
      (Or.inr ⟨"not json", rfl, rfl⟩)).2.1⟩

/-! ### Line machinery for the line-break passes (C6, C7) -/

/-- One step of `str::lines`: emit on a newline, stripping one carriage
return directly before it; the accumulator holds the current line
reversed. -/
def rustLinesGo (acc : List Char) : List Char → List String
  | [] => [String.mk acc.reverse]
  | c :: rest =>
      if c = '\n' then
        String.mk ((match acc with
          | '\r' :: a2 => a2
          | _ => acc).reverse) :: rustLinesGo [] rest
      else rustLinesGo (c :: acc) rest

/-- `str::lines`, collected: split on newlines, strip a final carriage
return per terminated line, final line ending optional. -/
def rustLines (s : String) : List String :=
  match s.data with
  | [] => []
  | c :: rest =>
      let ls := rustLinesGo [] (c :: rest)
      match ls.getLast? with
      | some t => if t = "" then ls.dropLast else ls
      | Option.none => ls

/-- `Vec::join("\n")`. -/
def joinNl : List String → String
  | [] => ""
  | [x] => x
  | x :: y :: rest => x ++ "\n" ++ joinNl (y :: rest)

/-- `line.trim_start()`, as characters. -/
def trimStartChars (line : String) : List Char :=
  line.data.dropWhile Char.isWhitespace

/-- The key scraped from a line: after a leading quote, the characters
up to the next quote (nothing without both quotes). -/
def extractKey (l : List Char) : Option String :=
  match l with
  | c :: rest =>
      if c = '"' then
        if rest.any (fun c2 => c2 = '"') then
          some (String.mk (rest.takeWhile (fun c2 => ¬ c2 = '"')))
        else Option.none
      else Option.none
  | [] => Option.none

/-- `trimmed.starts_with('"')`. -/
def headIsQuote (l : List Char) : Bool :=
  match l with
  | c :: _ => decide (c = '"')
  | [] => false

theorem headIsQuote_of_extractKey (l : List Char) (k : String)
    (h : extractKey l = some k) : headIsQuote l = true := by
  cases l with
  | nil => exact absurd h (by simp [extractKey])
  | cons c rest =>
      by_cases hc : c = '"'
      · simp [headIsQuote, hc]
      · exact absurd h (by simp [extractKey, hc])

/-- Net brace depth change of a line. -/
def braceDelta (l : List Char) : Int :=
  l.foldl (fun d c => if c = '{' then d + 1 else if c = '}' then d - 1 else d) 0

def isPrefixCharsB : List Char → List Char → Bool
  | [], _ => true
  | _ :: _, [] => false
  | a :: as, b :: bs => a = b && isPrefixCharsB as bs

/-- `str::contains` for a literal pattern. -/
def containsSub (pat : List Char) : List Char → Bool
  | [] => isPrefixCharsB pat []
  | x :: rest => isPrefixCharsB pat (x :: rest) || containsSub pat rest

/-- `LineBreakRule` (models/policy.rs): keep one blank line, or force
none. -/
inductive LineBreakRule where
  | keep
  | none
deriving DecidableEq, Repr

/-- `HashMap::get` over the embedded rule map. -/
def lookupRule : List (String × LineBreakRule) → String → Option LineBreakRule
  | [], _ => Option.none
  | (k, r) :: rest, key => if k = key then some r else lookupRule rest key

/-- `if let Some(last) = out.last() { if last.is_empty() { out.pop(); } }` -/
def popBlank (out : List String) : List String :=
  match out.getLast? with
  | some last => if last = "" then out.dropLast else out
  | Option.none => out

/-- The ensure-one-blank block shared by `apply_linebreaks` and
`apply_in_field_linebreaks`: with a trailing blank, pop one when the
line before it is also blank; with a trailing non-blank, push a blank;
with an empty buffer, do nothing. -/
def ensureOneBlank (out : List String) : List String :=
  match out.getLast? with
  | some last =>
      if last = "" then
        match out.dropLast.getLast? with
        | some l2 => if l2 = "" then out.dropLast else out
        | Option.none => out
      else out ++ [""]
  | Option.none => out

/-- State of `apply_linebreaks`'s loop. -/
structure LbSt where
  out : List String
  seenFirst : Bool
  depth : Int

/-- One line of `apply_linebreaks` (format.rs lines 301–348). -/
def lbStep (gfk : List String) (field_rules : List (String × LineBreakRule))
    (st : LbSt) (line : String) : LbSt :=
  let trimmed := trimStartChars line
  let st' :=
    if st.depth = 1 then
      match extractKey trimmed with
      | some key =>
          if key ∈ gfk then
            if st.seenFirst then
              match lookupRule field_rules key with
              | some LineBreakRule.none => { st with out := popBlank st.out }
              | _ => { st with out := ensureOneBlank st.out }
            else { st with seenFirst := true }
          else st
      | Option.none => st
    else st
  { st' with out := st'.out ++ [line], depth := st.depth + braceDelta trimmed }

/-- `apply_linebreaks` (format.rs): blank lines between top-level
groups. -/
def apply_linebreaks (pretty : String) (groups : List (List String))
    (between_groups : Bool)
    (field_rules : List (String × LineBreakRule)) : String :=
  if !between_groups || groups.isEmpty then pretty
  else
    joinNl (((rustLines pretty).foldl
      (lbStep (groups.filterMap List.head?) field_rules) ⟨[], false, 0⟩).out)

/-- Claim C6, counterexample: before a subsequent group's first key the
ensure-one-blank block pops at most one blank line per run, so three
preceding blank lines collapse to two, not to one as claimed. -/
theorem c6_counterexample :
    apply_linebreaks "\x7b\n  \"a\": 1,\n\n\n\n  \"b\": 2\n\x7d" [["a"], ["b"]] true []
      = "\x7b\n  \"a\": 1,\n\n\n  \"b\": 2\n\x7d"
    ∧ apply_linebreaks "\x7b\n  \"a\": 1,\n\n\n\n  \"b\": 2\n\x7d" [["a"], ["b"]] true []
      ≠ "\x7b\n  \"a\": 1,\n\n  \"b\": 2\n\x7d" :=
  ⟨by decide, by decide⟩

/-- Claim C6 (amended): while no group-first key has been seen the pass
only copies lines (so nothing is inserted before the first group); at a
depth-1 group-first key with a `None` override exactly one trailing
blank is removed when present; with `Keep` or no override the pass
pushes one blank after a non-blank line, keeps a single blank, and pops
exactly one blank from a longer run — a run of n ≥ 2 blanks leaves
n - 1, not 1. -/
theorem c6_linebreaks_amended (gfk : List String)
    (fr : List (String × LineBreakRule)) (st : LbSt) (line : String) :
    (st.seenFirst = false → (lbStep gfk fr st line).out = st.out ++ [line])
    ∧ (∀ key, st.seenFirst = true → st.depth = 1
        → extractKey (trimStartChars line) = some key → key ∈ gfk
        → lookupRule fr key = some LineBreakRule.none
        → (lbStep gfk fr st line).out = popBlank st.out ++ [line])
    ∧ (∀ key, st.seenFirst = true → st.depth = 1
        → extractKey (trimStartChars line) = some key → key ∈ gfk
        → (lookupRule fr key = some LineBreakRule.keep
            ∨ lookupRule fr key = Option.none)
        → (lbStep gfk fr st line).out = ensureOneBlank st.out ++ [line])
    ∧ (∀ (base : List String) (l : String), l ≠ ""
        → ensureOneBlank (base ++ [l]) = base ++ [l, ""])
    ∧ (∀ (base : List String) (l : String), l ≠ ""
        → ensureOneBlank (base ++ [l, ""]) = base ++ [l, ""])
    ∧ (∀ base : List String, ensureOneBlank (base ++ ["", ""]) = base ++ [""])
    ∧ (∀ (base : List String) (l : String), l ≠ ""
        → popBlank (base ++ [l]) = base ++ [l])
    ∧ (∀ base : List String, popBlank (base ++ [""]) = base) := by
  refine ⟨?_, ?_, ?_, ?_, ?_, ?_, ?_, ?_⟩
  · intro h
    by_cases hd : st.depth = 1
    · cases hk : extractKey (trimStartChars line) with
      | none => simp [lbStep, hd, hk]
      | some key =>
          by_cases hm : key ∈ gfk
          · simp [lbStep, hd, hk, hm, h]
          · simp [lbStep, hd, hk, hm]
    · simp [lbStep, hd]
  · intro key h1 h2 h3 h4 h5
    simp [lbStep, h1, h2, h3, h4, h5]
  · intro key h1 h2 h3 h4 h5
    rcases h5 with h5 | h5 <;> simp [lbStep, h1, h2, h3, h4, h5]
  · intro base l hl
    have h1 : (base ++ [l]).getLast? = some l := by simp
    simp only [ensureOneBlank, h1, if_neg hl, List.append_assoc]
    rfl
  · intro base l hl
    have hsplit : base ++ [l, ""] = (base ++ [l]) ++ [""] := by simp
    rw [hsplit]
    have h1 : ((base ++ [l]) ++ [""]).getLast? = some "" := by simp
    have h2 : ((base ++ [l]) ++ [""]).dropLast = base ++ [l] := by simp
    have h3 : (base ++ [l]).getLast? = some l := by simp
    simp only [ensureOneBlank, h1, if_pos rfl, h2, h3, if_neg hl]
    simp
  · intro base
    have hsplit : base ++ ["", ""] = (base ++ [""]) ++ [""] := by simp
    rw [hsplit]
    have h1 : ((base ++ [""]) ++ [""]).getLast? = some "" := by simp
    have h2 : ((base ++ [""]) ++ [""]).dropLast = base ++ [""] := by simp
    have h3 : (base ++ [""]).getLast? = some "" := by simp
    simp only [ensureOneBlank, h1, if_pos rfl, h2, h3]
    simp
  · intro base l hl
    have h1 : (base ++ [l]).getLast? = some l := by simp
    simp only [popBlank, h1, if_neg hl]
  · intro base
    have h1 : (base ++ [""]).getLast? = some "" := by simp
    have h2 : (base ++ [""]).dropLast = base := by simp
    simp only [popBlank, h1, if_pos rfl, h2]
    simp

/-- Witness for the amended C6: a `None`-ruled group-first key pops the
single trailing blank, and three trailing blanks collapse to two. -/
theorem c6_linebreaks_amended_witness :
    (lbStep ["b"] [("b", LineBreakRule.none)]
        ⟨["x", ""], true, 1⟩ "\"b\": 2").out = ["x", "\"b\": 2"]
    ∧ ensureOneBlank ["x", "", "", ""] = ["x", "", ""] := by
  constructor
  · have h := (c6_linebreaks_amended ["b"] [("b", LineBreakRule.none)]
        ⟨["x", ""], true, 1⟩ "\"b\": 2").2.1 "b" rfl rfl (by decide)
        (by decide) (by decide)
    rw [h]
    decide
  · have h := (c6_linebreaks_amended [] [] ⟨[], false, 0⟩ "").2.2.2.2.2.1
        ["x", ""]
    simpa using h

/-! ### In-field line breaks (C7) -/

def rlook : List (String × List String) → String → Option (List String)
  | [], _ => Option.none
  | (k, v) :: rest, key => if k = key then some v else rlook rest key

def rinsert : List (String × List String) → String → List String → List (String × List String)
  | [], k, v => [(k, v)]
  | (k', v') :: rest, k, v =>
      if k' = k then (k, v) :: rest else (k', v') :: rinsert rest k v

/-- `result.entry(fld).or_default().insert(child)`. -/
def addChild (res : List (String × List String)) (fld child : String) :
    List (String × List String) :=
  let cur := (rlook res fld).getD []
  if child ∈ cur then res else rinsert res fld (cur ++ [child])

/-- State of `compute_in_field_keep_map`'s scan. -/
structure CifkSt where
  result : List (String × List String)
  active : Option String
  depth : Int
  prevBlank : Bool

/-- One line of `compute_in_field_keep_map` (format.rs lines 232–272). -/
def cifkStep (targets : List String) (st : CifkSt) (line : String) : CifkSt :=
  let trimmed := trimStartChars line
  let st1 :=
    match st.active with
    | Option.none =>
        match extractKey trimmed with
        | some key =>
            if key ∈ targets
                ∧ containsSub (':' :: ' ' :: '{' :: []) trimmed = true then
              { st with active := some key, depth := 0, prevBlank := false }
            else st
        | Option.none => st
    | some _ => st
  match st1.active with
  | some fld =>
      let d := st1.depth + braceDelta trimmed
      let res :=
        if d = 1 ∧ headIsQuote trimmed = true
            ∧ containsSub ('"' :: ':' :: ' ' :: '{' :: []) trimmed = false
            ∧ st1.prevBlank = true then
          match extractKey trimmed with
          | some child => addChild st1.result fld child
          | Option.none => st1.result
        else st1.result
      { result := res,
        active := if d ≤ 0 ∧ containsSub ('}' :: []) trimmed = true
          then Option.none else some fld,
        depth := d,
        prevBlank := trimmed.isEmpty }
  | Option.none => { st1 with prevBlank := trimmed.isEmpty }

/-- `compute_in_field_keep_map` (format.rs): scan the original source
for child keys preceded by a blank line inside `Keep` fields. -/
def compute_in_field_keep_map (original : String)
    (in_field_rules : List (String × LineBreakRule)) :
    List (String × List String) :=
  let targets := (in_field_rules.filter (fun e =>
    match e.2 with
    | LineBreakRule.keep => true
    | LineBreakRule.none => false)).map Prod.fst
  if targets = [] then []
  else ((rustLines original).foldl (cifkStep targets)
    ⟨[], Option.none, 0, false⟩).result

def lastIsBrace (l : List Char) : Bool :=
  match l.getLast? with
  | some c => decide (c = '}')
  | Option.none => false

/-- State of `apply_in_field_linebreaks`'s loop. -/
structure AiflSt where
  out : List String
  activeField : Option (String × Bool)
  braceDepth : Int

/-- One line of `apply_in_field_linebreaks` (format.rs lines 368–459). -/
def aiflStep (in_field_rules : List (String × LineBreakRule))
    (keep_map : List (String × List String)) (st : AiflSt) (line : String) :
    AiflSt :=
  let trimmed := trimStartChars line
  let st1 :=
    match st.activeField with
    | Option.none =>
        match extractKey trimmed with
        | some key =>
            if (lookupRule in_field_rules key).isSome
                ∧ containsSub (':' :: ' ' :: '{' :: []) trimmed = true then
              { st with activeField := some (key, false), braceDepth := 0 }
            else st
        | Option.none => st
    | some _ => st
  match st1.activeField with
  | some (fld, seenFirst) =>
      let d := st1.braceDepth + braceDelta trimmed
      let p :=
        if d = 1 ∧ headIsQuote trimmed = true
            ∧ containsSub ('"' :: ':' :: ' ' :: '{' :: []) trimmed = false then
          if seenFirst then
            match (lookupRule in_field_rules fld).getD LineBreakRule.keep with
            | LineBreakRule.keep =>
                let shouldBlank :=
                  match extractKey trimmed with
                  | some ck =>
                      match rlook keep_map fld with
                      | some s => decide (ck ∈ s)
                      | Option.none => false
                  | Option.none => false
                if shouldBlank then (ensureOneBlank st1.out, seenFirst)
                else (popBlank st1.out, seenFirst)
            | LineBreakRule.none => (popBlank st1.out, seenFirst)
          else (st1.out, true)
        else (st1.out, seenFirst)
      { out := p.1 ++ [line],
        activeField :=
          if d ≤ 0 ∧ (trimmed = ['}'] ∨ trimmed = ['}', ',']
              ∨ lastIsBrace trimmed = true)
          then Option.none else some (fld, p.2),
        braceDepth := d }
  | Option.none => { st1 with out := st1.out ++ [line] }

/-- `apply_in_field_linebreaks` (format.rs): mirror the keep map inside
configured fields of the pretty-printed output. -/
def apply_in_field_linebreaks (pretty : String)
    (in_field_rules : List (String × LineBreakRule))
    (keep_map : List (String × List String)) : String :=
  if in_field_rules.isEmpty then pretty
  else joinNl (((rustLines pretty).foldl (aiflStep in_field_rules keep_map)
    ⟨[], Option.none, 0⟩).out)

/-- Claim C7, counterexample: inside a `Keep` field, the child `b` with
an object value had a blank line immediately before it in the original,
yet the scan skips lines containing a quote-colon-brace, so `b` is never
recorded and the formatted output carries no blank line before it — the
claimed if-and-only-if fails for object-valued children. -/
theorem c7_counterexample :
    rustLines "\x7b\n    \"f\": \x7b\n        \"a\": 1,\n\n        \"b\": \x7b\x7d\n    \x7d\n\x7d"
      = ["\x7b", "    \"f\": \x7b", "        \"a\": 1,", "", "        \"b\": \x7b\x7d",
          "    \x7d", "\x7d"]
    ∧ compute_in_field_keep_map
        "\x7b\n    \"f\": \x7b\n        \"a\": 1,\n\n        \"b\": \x7b\x7d\n    \x7d\n\x7d"
        [("f", LineBreakRule.keep)] = []
    ∧ apply_in_field_linebreaks "\x7b\n  \"f\": \x7b\n    \"a\": 1,\n    \"b\": \x7b\x7d\n  \x7d\n\x7d"
        [("f", LineBreakRule.keep)]
        (compute_in_field_keep_map
          "\x7b\n    \"f\": \x7b\n        \"a\": 1,\n\n        \"b\": \x7b\x7d\n    \x7d\n\x7d"
          [("f", LineBreakRule.keep)])
      = "\x7b\n  \"f\": \x7b\n    \"a\": 1,\n    \"b\": \x7b\x7d\n  \x7d\n\x7d" :=
  ⟨by decide, by decide, by decide⟩

/-- Claim C7 (amended): inside an active `Keep` field, before the first
entry the pass only copies lines (no blank before the first child);
at a non-object-valued depth-1 child it ensures one blank exactly when
the keep map records that child for the field, and removes a trailing
blank otherwise; a line containing quote-colon-brace (an object-valued
child) is copied untouched, so the claimed equivalence holds only for
non-object-valued children. -/
theorem c7_in_field_amended (rules : List (String × LineBreakRule))
    (keepMap : List (String × List String)) (st : AiflSt) (line : String)
    (fld : String) :
    (st.activeField = some (fld, false) →
      (aiflStep rules keepMap st line).out = st.out ++ [line])
    ∧ (∀ ck, st.activeField = some (fld, true)
        → st.braceDepth + braceDelta (trimStartChars line) = 1
        → extractKey (trimStartChars line) = some ck
        → containsSub ('"' :: ':' :: ' ' :: '{' :: []) (trimStartChars line) = false
        → lookupRule rules fld = some LineBreakRule.keep
        → (∃ s, rlook keepMap fld = some s ∧ ck ∈ s)
        → (aiflStep rules keepMap st line).out = ensureOneBlank st.out ++ [line])
    ∧ (∀ ck, st.activeField = some (fld, true)
        → st.braceDepth + braceDelta (trimStartChars line) = 1
        → extractKey (trimStartChars line) = some ck
        → containsSub ('"' :: ':' :: ' ' :: '{' :: []) (trimStartChars line) = false
        → lookupRule rules fld = some LineBreakRule.keep
        → (∀ s, rlook keepMap fld = some s → ck ∉ s)
        → (aiflStep rules keepMap st line).out = popBlank st.out ++ [line])
    ∧ (∀ b : Bool, st.activeField = some (fld, b)
        → containsSub ('"' :: ':' :: ' ' :: '{' :: []) (trimStartChars line) = true
        → (aiflStep rules keepMap st line).out = st.out ++ [line]) := by
  refine ⟨?_, ?_, ?_, ?_⟩
  · intro h
    by_cases hc : (st.braceDepth + braceDelta (trimStartChars line) = 1
        ∧ headIsQuote (trimStartChars line) = true
        ∧ containsSub ('"' :: ':' :: ' ' :: '{' :: []) (trimStartChars line) = false)
    · simp [aiflStep, h, hc]
    · simp [aiflStep, h, hc]
  · intro ck h hd hk hcf hr hm
    rcases hm with ⟨s, hs, hmem⟩
    have hq := headIsQuote_of_extractKey _ _ hk
    simp [aiflStep, h, hd, hk, hcf, hr, hq, hs, hmem]
  · intro ck h hd hk hcf hr hnm
    have hq := headIsQuote_of_extractKey _ _ hk
    cases hrl : rlook keepMap fld with
    | none => simp [aiflStep, h, hd, hk, hcf, hr, hq, hrl]
    | some s =>
        have hns : ck ∉ s := hnm s hrl
        simp [aiflStep, h, hd, hk, hcf, hr, hq, hrl, hns]
  · intro b h hcf
    simp [aiflStep, h, hcf]

/-- Witness for the amended C7: a recorded child gets its single blank
line restored. -/
theorem c7_in_field_amended_witness :
    (aiflStep [("f", LineBreakRule.keep)] [("f", ["b"])]
        ⟨["x"], some ("f", true), 1⟩ "\"b\": 2").out = ["x", "", "\"b\": 2"] := by
  have h := (c7_in_field_amended [("f", LineBreakRule.keep)] [("f", ["b"])]
      ⟨["x"], some ("f", true), 1⟩ "\"b\": 2" "f").2.1 "b" rfl (by decide)
      (by decide) (by decide) (by decide) ⟨["b"], rfl, by decide⟩
  rw [h]
  decide

end Rigra
